import Mathlib

/-!
Verification development for the sharded dataset abstraction of
`design_bench/datasets/dataset_builder.py` (class `DatasetBuilder`).

The embedding models

* shards as in-memory lists of rows (a `DiskResource` shard is materialized
  to its array on every read/write in the source, so its observable content
  is the stored array);
* design values `x` and prediction values `y` of one sample as rationals
  (the source stores per-row arrays; all statistics and normalization act
  componentwise, so one component is modelled; predictions have shape `[N, 1]`
  and are genuinely scalar per row);
* numpy's IEEE `inf` values (`np.NINF` / `np.PINF`, used as percentile
  thresholds) by an extended-rational type `EB`;
* the Python exceptions raised by `DatasetBuilder` (`ValueError` with
  distinct messages, plus the `IndexError` that Python list indexing raises)
  as an `Err` inductive, and fallible operations as `Except Err`;
* `np.sqrt`, which is irrational on rationals, as an explicit function
  parameter `sqrtF : ℚ → ℚ` of the statistics routines; no theorem below
  assumes anything about it except where stated.

Generators are modelled as the finite list of batches they yield.
-/

namespace DesignBench

deriving instance DecidableEq for Except

/-- The error kinds `DatasetBuilder` raises: invalid generator/percentile
arguments, the shard-id bounds check, mutation of a frozen dataset, an empty
split partition, and the `IndexError` Python itself raises when a list index
is out of range (distinct from the builder's own bounds-check error). -/
inductive Err where
  | invalidArgument
  | indexOutOfRange
  | frozen
  | emptySplit
  | pyIndexError
deriving DecidableEq, Repr

/-- Extended rationals: `np.NINF`, a finite value, `np.PINF`.  Used for the
percentile thresholds `dataset_min_output` / `dataset_max_output`. -/
inductive EB where
  | ninf
  | val (q : ℚ)
  | pinf
deriving DecidableEq, Repr

/-- IEEE `<=` on the modelled extended values (no NaN arises here). -/
def EB.le : EB → EB → Bool
  | .ninf, _ => true
  | _, .pinf => true
  | .val a, .val b => decide (a ≤ b)
  | .pinf, .val _ => false
  | .pinf, .ninf => false
  | .val _, .ninf => false

/-- IEEE `<` on the modelled extended values: `a < b ↔ ¬ (b ≤ a)`. -/
def EB.lt (a b : EB) : Bool := !EB.le b a

/-!  ## The batch stream of `iterate_batches`

`iterate_batches` walks the shards in index order; within each shard it
slices `target_size = batch_size - y_batch_size` rows from the current read
position, applies `batch_transform` to the slice unless `disable_transform`
is set, appends the transformed slice to the pending batch, and yields the
concatenated batch when `y_batch_size` reaches `batch_size`, or when the
final shard is exhausted and `drop_remainder` is false.

`process_shard_fuel` is the inner `while shard_position < shape[0]` loop for
one shard, parametrized by the per-slice transform `tf`; `flush` stands for
`shard_id + 1 == num_shards and not drop_remainder`.  The loop advances
`shard_position` by `target_size` every iteration, so (for `batch_size ≥ 1`)
it runs at most `2 * rows.length + 1` times; the recursion is paid for by an
explicit fuel argument so that the definition computes by reduction, and the
wrapper `process_shard` supplies fuel that the lemmas below show sufficient.
-/

/-- The inner per-shard loop of `iterate_batches`, fueled.  State: `buf` is
the pending (already transformed) batch contents (`x_batch`/`y_batch`, whose
total length is `y_batch_size`), `rows` the unread rest of the shard.
Returns the batches yielded while inside this shard and the pending buffer
left for the next shard. -/
def process_shard_fuel {ρ : Type} (fuel : Nat) (batch_size : Nat)
    (tf : List ρ → List ρ) (flush : Bool) (buf rows : List ρ) :
    List (List ρ) × List ρ :=
  match fuel with
  | 0 => ([], buf)
  | fuel + 1 =>
    if rows.isEmpty then ([], buf)
    else
      -- how many samples will be attempted to read
      let target := batch_size - buf.length
      -- slice out a component of the current shard and transform it
      let buf2 := buf ++ tf (rows.take target)
      let rest := rows.drop target
      -- yield the current batch when enough samples are loaded
      if batch_size ≤ buf2.length ∨ (rest.isEmpty ∧ flush) then
        let r := process_shard_fuel fuel batch_size tf flush [] rest
        (buf2 :: r.1, r.2)
      else
        process_shard_fuel fuel batch_size tf flush buf2 rest

/-- The per-shard loop with fuel sufficient for any `batch_size ≥ 1`. -/
def process_shard {ρ : Type} (batch_size : Nat) (tf : List ρ → List ρ)
    (flush : Bool) (buf rows : List ρ) : List (List ρ) × List ρ :=
  process_shard_fuel (2 * rows.length + 2) batch_size tf flush buf rows

/-- The shard walk of `iterate_batches`: the pending buffer is threaded from
shard to shard, and only the final shard may flush a short batch (and only
when `drop_remainder` is false).  A leftover buffer after the final shard is
dropped (the generator just returns). -/
def process_shards {ρ : Type} (batch_size : Nat) (tf : List ρ → List ρ)
    (drop_remainder : Bool) : List (List ρ) → List ρ → List (List ρ)
  | [], _ => []
  | [s], buf => (process_shard batch_size tf (!drop_remainder) buf s).1
  | s :: s2 :: ss, buf =>
    let r := process_shard batch_size tf false buf s
    r.1 ++ process_shards batch_size tf drop_remainder (s2 :: ss) r.2

theorem tf_nil {ρ : Type} (tf : List ρ → List ρ)
    (htf : ∀ a b : List ρ, tf (a ++ b) = tf a ++ tf b) : tf [] = [] := by
  have h := htf [] []
  simp only [List.append_nil] at h
  have hlen := congrArg List.length h
  simp only [List.length_append] at hlen
  have : (tf []).length = 0 := by omega
  exact List.eq_nil_of_length_eq_zero this

/-- Conservation: while fuel suffices, every row that entered the pending
buffer ends up either in a yielded batch or in the leftover buffer, in
order. -/
theorem process_shard_fuel_conserve {ρ : Type} (batch_size : Nat)
    (tf : List ρ → List ρ) (htf : ∀ a b : List ρ, tf (a ++ b) = tf a ++ tf b)
    (flush : Bool) :
    ∀ fuel buf rows, batch_size ≠ 0 →
      2 * rows.length + min buf.length 1 < fuel →
      (process_shard_fuel fuel batch_size tf flush buf rows).1.flatten
        ++ (process_shard_fuel fuel batch_size tf flush buf rows).2
        = buf ++ tf rows := by
  intro fuel
  induction fuel with
  | zero => intro buf rows _ hfuel; omega
  | succ fuel ih =>
    intro buf rows hbs hfuel
    by_cases hrows : rows.isEmpty
    · have hr : rows = [] := List.isEmpty_iff.mp hrows
      subst hr
      simp [process_shard_fuel, tf_nil tf htf]
    · have hlen : 0 < rows.length := by
        cases rows with
        | nil => simp at hrows
        | cons a l => simp
      rw [process_shard_fuel]
      simp only [hrows, Bool.false_eq_true, if_false]
      set target := batch_size - buf.length with htarget
      set buf2 := buf ++ tf (rows.take target) with hbuf2
      set rest := rows.drop target with hrest
      have hrestlen : rest.length = rows.length - target := List.length_drop _ _
      by_cases hcond : batch_size ≤ buf2.length ∨ (rest.isEmpty ∧ flush)
      · simp only [hcond, if_true]
        have hadq : 2 * rest.length + min ([] : List ρ).length 1 < fuel := by
          by_cases hbb : batch_size ≤ buf.length
          · have hb1 : 1 ≤ buf.length := le_trans (Nat.one_le_iff_ne_zero.mpr hbs) hbb
            have ht0 : target = 0 := by omega
            simp only [List.length_nil]
            omega
          · have ht1 : 1 ≤ target := by omega
            simp only [List.length_nil]
            omega
        have hrec := ih [] rest hbs hadq
        simp only [List.flatten_cons, List.append_assoc]
        rw [hrec]
        simp only [List.nil_append, hbuf2, hrest, List.append_assoc]
        rw [← htf, List.take_append_drop]
      · simp only [hcond, if_false]
        push_neg at hcond
        have hb2 : buf2.length < batch_size := by omega
        have hble : buf.length ≤ buf2.length := by
          simp [hbuf2]
        have ht1 : 1 ≤ target := by omega
        have hadq : 2 * rest.length + min buf2.length 1 < fuel := by
          have : min buf2.length 1 ≤ 1 := Nat.min_le_right _ _
          omega
        have hrec := ih buf2 rest hbs hadq
        rw [hrec]
        simp only [hbuf2, hrest, List.append_assoc]
        rw [← htf, List.take_append_drop]

/-- On the final shard with `drop_remainder = false` (`flush = true`), a
nonempty shard always ends with a yield, so no pending buffer is left. -/
theorem process_shard_fuel_flush {ρ : Type} (batch_size : Nat)
    (tf : List ρ → List ρ) :
    ∀ fuel buf rows, batch_size ≠ 0 →
      2 * rows.length + min buf.length 1 < fuel → rows ≠ [] →
      (process_shard_fuel fuel batch_size tf true buf rows).2 = [] := by
  intro fuel
  induction fuel with
  | zero => intro buf rows _ hfuel; omega
  | succ fuel ih =>
    intro buf rows hbs hfuel hne
    have hrows : rows.isEmpty = false := by
      cases rows with
      | nil => exact absurd rfl hne
      | cons a l => rfl
    have hlen : 0 < rows.length := by
      cases rows with
      | nil => exact absurd rfl hne
      | cons a l => simp
    rw [process_shard_fuel]
    simp only [hrows, Bool.false_eq_true, if_false]
    set target := batch_size - buf.length with htarget
    set buf2 := buf ++ tf (rows.take target) with hbuf2
    set rest := rows.drop target with hrest
    have hrestlen : rest.length = rows.length - target := List.length_drop _ _
    split
    · by_cases hrn : rest = []
      · rw [hrn]
        have hfuel1 : 0 < fuel := by
          rw [hrn] at hrestlen
          simp only [List.length_nil] at hrestlen
          omega
        cases fuel with
        | zero => omega
        | succ f => simp [process_shard_fuel]
      · have hadq : 2 * rest.length + min ([] : List ρ).length 1 < fuel := by
          by_cases hbb : batch_size ≤ buf.length
          · have hb1 : 1 ≤ buf.length := le_trans (Nat.one_le_iff_ne_zero.mpr hbs) hbb
            have ht0 : target = 0 := by omega
            simp only [List.length_nil]
            omega
          · have ht1 : 1 ≤ target := by omega
            simp only [List.length_nil]
            omega
        exact ih [] rest hbs hadq hrn
    · rename_i hcond
      have hrn : rest ≠ [] := by
        intro h
        exact hcond (Or.inr ⟨by simp [h], trivial⟩)
      have hb2 : buf2.length < batch_size := by
        rcases Nat.lt_or_ge buf2.length batch_size with h | h
        · exact h
        · exact absurd (Or.inl h) hcond
      have hble : buf.length ≤ buf2.length := by simp [hbuf2]
      have ht1 : 1 ≤ target := by omega
      have hrl : 0 < rest.length := List.length_pos.mpr hrn
      have hadq : 2 * rest.length + min buf2.length 1 < fuel := by
        have : min buf2.length 1 ≤ 1 := Nat.min_le_right _ _
        omega
      exact ih buf2 rest hbs hadq hrn

theorem process_shard_conserve {ρ : Type} (batch_size : Nat)
    (tf : List ρ → List ρ) (htf : ∀ a b : List ρ, tf (a ++ b) = tf a ++ tf b)
    (flush : Bool) (buf rows : List ρ) (hbs : batch_size ≠ 0) :
    (process_shard batch_size tf flush buf rows).1.flatten
      ++ (process_shard batch_size tf flush buf rows).2 = buf ++ tf rows := by
  apply process_shard_fuel_conserve batch_size tf htf flush _ buf rows hbs
  have : min buf.length 1 ≤ 1 := Nat.min_le_right _ _
  omega

theorem process_shard_flush {ρ : Type} (batch_size : Nat)
    (tf : List ρ → List ρ) (buf rows : List ρ) (hbs : batch_size ≠ 0)
    (hne : rows ≠ []) :
    (process_shard batch_size tf true buf rows).2 = [] := by
  apply process_shard_fuel_flush batch_size tf _ buf rows hbs _ hne
  have : min buf.length 1 ≤ 1 := Nat.min_le_right _ _
  omega

/-- With `drop_remainder = false` and a nonempty final shard, the yielded
batches concatenate to the pending buffer followed by the transform of all
rows, in shard-index-then-row-offset order. -/
theorem process_shards_reconstruct {ρ : Type} (batch_size : Nat)
    (tf : List ρ → List ρ) (htf : ∀ a b : List ρ, tf (a ++ b) = tf a ++ tf b)
    (hbs : batch_size ≠ 0) :
    ∀ shards buf, shards ≠ [] → shards.getLast? ≠ some [] →
      (process_shards batch_size tf false shards buf).flatten
        = buf ++ tf shards.flatten := by
  intro shards
  induction shards with
  | nil => intro buf h _; exact absurd rfl h
  | cons s ss ih =>
    intro buf _ hlast
    cases ss with
    | nil =>
      have hs : s ≠ [] := by
        intro h
        apply hlast
        simp [h]
      have hcons := process_shard_conserve batch_size tf htf true buf s hbs
      have hfl := process_shard_flush batch_size tf buf s hbs hs
      simp only [process_shards, Bool.not_false]
      rw [hfl, List.append_nil] at hcons
      simpa using hcons
    | cons s2 ss2 =>
      have hlast2 : (s2 :: ss2).getLast? ≠ some [] := by
        rwa [List.getLast?_cons_cons] at hlast
      simp only [process_shards]
      set r := process_shard batch_size tf false buf s with hr
      rw [List.flatten_append]
      rw [ih r.2 (by simp) hlast2]
      have hcons := process_shard_conserve batch_size tf htf false buf s hbs
      rw [← List.append_assoc, hcons]
      simp only [List.flatten_cons, List.append_assoc]
      rw [← htf]

/-- Reconstruction from an empty pending buffer, allowing an empty shard
list. -/
theorem process_shards_join {ρ : Type} (batch_size : Nat)
    (tf : List ρ → List ρ) (htf : ∀ a b : List ρ, tf (a ++ b) = tf a ++ tf b)
    (hbs : batch_size ≠ 0) (shards : List (List ρ))
    (hlast : shards.getLast? ≠ some []) :
    (process_shards batch_size tf false shards []).flatten = tf shards.flatten := by
  cases shards with
  | nil => simp [process_shards, tf_nil tf htf]
  | cons s ss =>
    have := process_shards_reconstruct batch_size tf htf hbs (s :: ss) []
      (by simp) hlast
    simpa using this

/-!  ## The dataset state

`DState` carries the mutable attributes `__init__` sets up.  Shards are the
in-memory contents of `x_shards` / `y_shards` (one list of row values per
shard).  The spec's data-model invariant — "all x-shards and y-shards are
paired index-for-index and have matching leading-dimension length" — is not
enforced by the constructor, so it is carried as a hypothesis by the
theorems that need it.
-/

structure DState where
  x_shards : List (List ℚ)
  y_shards : List (List ℚ)
  internal_batch_size : Nat
  dataset_min_percentile : ℚ
  dataset_max_percentile : ℚ
  dataset_min_output : EB
  dataset_max_output : EB
  dataset_size : Nat
  is_normalized_x : Bool
  is_normalized_y : Bool
  x_mean : Option ℚ
  y_mean : Option ℚ
  x_standard_dev : Option ℚ
  y_standard_dev : Option ℚ
  disable_transform : Bool
  freeze_statistics : Bool
deriving DecidableEq, Repr

/-- `get_num_shards` returns `self.num_shards`, which `__init__` counts by
iterating `zip(self.x_shards, self.y_shards)` — one increment per pair, so
the count is the length of the shorter list. -/
def get_num_shards (s : DState) : Nat :=
  (s.x_shards.zip s.y_shards).length

/-- Python sequence indexing `xs[i]`: a negative index counts from the end;
an index out of range raises `IndexError`. -/
def pyIndex {α : Type} (l : List α) (i : ℤ) : Except Err α :=
  let j : ℤ := if i < 0 then (l.length : ℤ) + i else i
  if h : 0 ≤ j ∧ j < (l.length : ℤ) then
    .ok (l.get ⟨j.toNat, by omega⟩)
  else
    .error .pyIndexError

/-- The bounds check shared by `get_shard_x` / `get_shard_y` / `set_shard_x`
/ `set_shard_y`: the source line is `if 0 < shard_id >= self.get_num_shards()`,
a Python chained comparison, i.e. `0 < shard_id and shard_id >= num_shards`. -/
def shard_id_check_fails (s : DState) (shard_id : ℤ) : Bool :=
  decide (0 < shard_id) && decide ((get_num_shards s : ℤ) ≤ shard_id)

/-- `get_shard_x`: bounds check, then `self.x_shards[shard_id]` (for a
`DiskResource` shard the stored array is loaded; the observable content is
the same). -/
def get_shard_x (s : DState) (shard_id : ℤ) : Except Err (List ℚ) :=
  if shard_id_check_fails s shard_id then .error .indexOutOfRange
  else pyIndex s.x_shards shard_id

/-- `get_shard_y`: bounds check, then `self.y_shards[shard_id]`. -/
def get_shard_y (s : DState) (shard_id : ℤ) : Except Err (List ℚ) :=
  if shard_id_check_fails s shard_id then .error .indexOutOfRange
  else pyIndex s.y_shards shard_id

/-- Python list assignment `l[i] = v` with the same indexing rule. -/
def pySet {α : Type} (l : List α) (i : ℤ) (v : α) : Except Err (List α) :=
  let j : ℤ := if i < 0 then (l.length : ℤ) + i else i
  if 0 ≤ j ∧ j < (l.length : ℤ) then .ok (l.set j.toNat v)
  else .error .pyIndexError

/-- `set_shard_x`: bounds check, then `self.x_shards[shard_id] = shard_data`
(or `np.save` for a `DiskResource` shard, observably the same). -/
def set_shard_x (s : DState) (shard_id : ℤ) (shard_data : List ℚ) :
    Except Err DState :=
  if shard_id_check_fails s shard_id then .error .indexOutOfRange
  else (pySet s.x_shards shard_id shard_data).map
    (fun l => { s with x_shards := l })

/-- `set_shard_y`: bounds check, then `self.y_shards[shard_id] = shard_data`. -/
def set_shard_y (s : DState) (shard_id : ℤ) (shard_data : List ℚ) :
    Except Err DState :=
  if shard_id_check_fails s shard_id then .error .indexOutOfRange
  else (pySet s.y_shards shard_id shard_data).map
    (fun l => { s with y_shards := l })

/-- The shard walk of `iterate_batches`: `for shard_id in
range(self.get_num_shards())`, pairing `get_shard_x(shard_id)` with
`get_shard_y(shard_id)` row by row (the loop reads both arrays and slices
them at the same positions; the spec's invariant gives them equal length,
and `zip` realizes the pairing). -/
def shard_pairs (s : DState) : List (List (ℚ × ℚ)) :=
  (List.range (get_num_shards s)).map fun i =>
    (s.x_shards.getD i []).zip (s.y_shards.getD i [])

/-- A prediction value inside the current percentile thresholds:
`dataset_min_output <= y <= dataset_max_output` (IEEE comparison against the
±infinity defaults). -/
def in_bounds (s : DState) (y : ℚ) : Bool :=
  EB.le s.dataset_min_output (.val y) && EB.le (.val y) s.dataset_max_output

/-- Modelled from the spec: `batch_transform` is abstract in `DatasetBuilder`
and implemented by dataset subclasses that are not among the sources.  Per the
spec's transform contract (§4.2), rows whose y falls outside
`[dataset_min_output, dataset_max_output]` are dropped, then surviving rows
are normalized with the cached statistics when the corresponding
`is_normalized_*` flag is set: `x' = (x - x_mean) / x_std`,
`y' = (y - y_mean) / y_std`. -/
def batch_transform (s : DState) (rows : List (ℚ × ℚ)) : List (ℚ × ℚ) :=
  (rows.filter fun r => in_bounds s r.2).map
    fun r =>
      ((if s.is_normalized_x then
          (r.1 - s.x_mean.getD 0) / s.x_standard_dev.getD 1 else r.1),
       (if s.is_normalized_y then
          (r.2 - s.y_mean.getD 0) / s.y_standard_dev.getD 1 else r.2))

/-- The per-slice transform `iterate_batches` applies: `batch_transform`
unless `disable_transform` is set. -/
def ds_transform (s : DState) (rows : List (ℚ × ℚ)) : List (ℚ × ℚ) :=
  if s.disable_transform then rows else batch_transform s rows

/-- `iterate_batches(batch_size, return_x, return_y, drop_remainder)`,
modelled as the list of yielded batches.  Every batch is yielded as paired
rows; the `return_x` / `return_y` flags select which channels the Python
generator projects out of the pair, and do not affect batch boundaries
(`y_shard_data` is read and sliced either way, and `batch_transform`
receives and filters both channels).  Raises `InvalidArgument`
(`ValueError("invalid arguments passed to batch generator")`) before
touching any shard when `batch_size < 1` or no channel is requested. -/
def iterate_batches (s : DState) (batch_size : ℤ)
    (return_x return_y drop_remainder : Bool) :
    Except Err (List (List (ℚ × ℚ))) :=
  if batch_size < 1 ∨ (return_x = false ∧ return_y = false) then
    .error .invalidArgument
  else
    .ok (process_shards batch_size.toNat (ds_transform s) drop_remainder
      (shard_pairs s) [])

/-- The batches of `self.iterate_batches(self.internal_batch_size, ...)`,
used by every internal bulk read.  (The generator itself re-checks
`batch_size >= 1`; the theorems below carry `1 ≤ internal_batch_size`, which
holds for every constructed dataset — the constructor default is 32.) -/
def internal_batches (s : DState) : List (List (ℚ × ℚ)) :=
  process_shards s.internal_batch_size (ds_transform s) false (shard_pairs s) []

/-- A state with `self.disable_transform = True`, as the bulk operations
(`subsample`, `relabel`, `clone`, `split`) set before reading. -/
def transform_disabled (s : DState) : DState :=
  { s with disable_transform := true }

/-- The rows the bulk operations read while the transform is disabled
(`self.x`, `self.y` and `iterate_samples` concatenate the same batches). -/
def raw_rows (s : DState) : List (ℚ × ℚ) :=
  (internal_batches (transform_disabled s)).flatten

/-- `np.percentile(a, q)` with the default linear interpolation:
on the ascending sort of `a`, the value at fractional rank
`q / 100 * (len(a) - 1)`. -/
def percentile (a : List ℚ) (q : ℚ) : ℚ :=
  let sorted := a.mergeSort fun u v => decide (u ≤ v)
  let rank : ℚ := q / 100 * ((a.length : ℚ) - 1)
  let lo := (Rat.floor rank).toNat
  let hi := (Rat.ceil rank).toNat
  let l := sorted.getD lo 0
  let h := sorted.getD hi 0
  l + (h - l) * (rank - (Rat.floor rank : ℚ))

/-!  ## Statistics (`update_x_statistics` / `update_y_statistics`)

Two streaming passes over `iterate_batches(self.internal_batch_size, ...)`:
the first maintains a running weighted mean, the second a running weighted
mean of squared deviations.  The source temporarily clears only the
corresponding `is_normalized_*` flag (saving and restoring it around the
passes); it does **not** touch `disable_transform`, so the read happens
under the active percentile filter.
-/

/-- One step of the first pass: the fold state is `(samples, mean)`, updated
per batch by `mean = mean * (samples / (samples + batch_size)) +
sum(batch) / (samples + batch_size)` and `samples += batch_size`. -/
def mean_step (acc : ℚ × ℚ) (batch : List ℚ) : ℚ × ℚ :=
  let b : ℚ := batch.length
  (acc.1 + b, acc.2 * (acc.1 / (acc.1 + b)) + batch.sum / (acc.1 + b))

/-- The first pass, from `samples = x_mean = 0`. -/
def running_mean_pass (batches : List (List ℚ)) : ℚ × ℚ :=
  batches.foldl mean_step (0, 0)

/-- One step of the second pass: the same recurrence over the squared
deviations from the first pass's mean. -/
def variance_step (m : ℚ) (acc : ℚ × ℚ) (batch : List ℚ) : ℚ × ℚ :=
  let b : ℚ := batch.length
  (acc.1 + b,
   acc.2 * (acc.1 / (acc.1 + b))
     + (batch.map fun v => (v - m) ^ 2).sum / (acc.1 + b))

/-- The second pass, from `samples = x_variance = 0`. -/
def running_variance_pass (m : ℚ) (batches : List (List ℚ)) : ℚ × ℚ :=
  batches.foldl (variance_step m) (0, 0)

/-- `np.where(std == 0.0, 1.0, std)`: zero standard deviations are replaced
by one before being cached, to prevent division singularities. -/
def remove_zero_std (d : ℚ) : ℚ := if d = 0 then 1 else d

/-- `update_x_statistics`.  Fails `FrozenStatisticsError` when frozen.
Saves `is_normalized_x`, clears it for the two passes (so the x channel is
read unnormalized), restores it afterwards — the returned state differs from
the input only in `x_mean` and `x_standard_dev`.  `disable_transform` is not
modified, so the passes read the subsampled view.  `np.sqrt` is the
parameter `sqrtF`. -/
def update_x_statistics (sqrtF : ℚ → ℚ) (s : DState) : Except Err DState :=
  if s.freeze_statistics then .error .frozen
  else
    let s0 := { s with is_normalized_x := false }
    let batches := (internal_batches s0).map (List.map Prod.fst)
    let x_mean := (running_mean_pass batches).2
    let x_variance := (running_variance_pass x_mean batches).2
    .ok { s with x_mean := some x_mean,
                 x_standard_dev := some (remove_zero_std (sqrtF x_variance)) }

/-- `update_y_statistics`: the y-channel mirror of `update_x_statistics`. -/
def update_y_statistics (sqrtF : ℚ → ℚ) (s : DState) : Except Err DState :=
  if s.freeze_statistics then .error .frozen
  else
    let s0 := { s with is_normalized_y := false }
    let batches := (internal_batches s0).map (List.map Prod.snd)
    let y_mean := (running_mean_pass batches).2
    let y_variance := (running_variance_pass y_mean batches).2
    .ok { s with y_mean := some y_mean,
                 y_standard_dev := some (remove_zero_std (sqrtF y_variance)) }

/-- The y values `subsample` materializes with the transform disabled. -/
def raw_y (s : DState) : List ℚ := (raw_rows s).map Prod.snd

/-- The statistics refresh at the end of `subsample`: recompute the design
statistics when `is_normalized_x` is set, then the prediction statistics
when `is_normalized_y` is set. -/
def refresh_statistics (sqrtF : ℚ → ℚ) (u : DState) : Except Err DState :=
  (if u.is_normalized_x then update_x_statistics sqrtF u else .ok u).bind
    fun s2 => if s2.is_normalized_y then update_y_statistics sqrtF s2 else .ok s2

/-- `subsample(max_percentile, min_percentile)`: freeze check, argument
check, full y materialization with the transform disabled, percentile
thresholds (percentile 0 maps to `np.NINF`, 100 to `np.PINF`),
`dataset_size` recount, and statistics refresh when normalization is
active.  `disable_transform` is reset to `False` unconditionally. -/
def subsample (sqrtF : ℚ → ℚ) (s : DState)
    (max_percentile min_percentile : ℚ) : Except Err DState :=
  if s.freeze_statistics then .error .frozen
  else if max_percentile < min_percentile then .error .invalidArgument
  else
    let y := raw_y s
    let min_output : EB :=
      if 0 < min_percentile then .val (percentile y min_percentile) else .ninf
    let max_output : EB :=
      if max_percentile < 100 then .val (percentile y max_percentile) else .pinf
    let size :=
      (y.filter fun v => EB.le (.val v) max_output && EB.le min_output (.val v)).length
    refresh_statistics sqrtF { s with
      disable_transform := false,
      dataset_min_percentile := min_percentile,
      dataset_min_output := min_output,
      dataset_max_percentile := max_percentile,
      dataset_max_output := max_output,
      dataset_size := size }

/-- `map_normalize_x`: freeze check, set `is_normalized_x`, recompute
statistics. -/
def map_normalize_x (sqrtF : ℚ → ℚ) (s : DState) : Except Err DState :=
  if s.freeze_statistics then .error .frozen
  else update_x_statistics sqrtF { s with is_normalized_x := true }

/-- `map_normalize_y`: freeze check, set `is_normalized_y`, recompute
statistics. -/
def map_normalize_y (sqrtF : ℚ → ℚ) (s : DState) : Except Err DState :=
  if s.freeze_statistics then .error .frozen
  else update_y_statistics sqrtF { s with is_normalized_y := true }

/-- `map_denormalize_x`: freeze check, clear `is_normalized_x` (statistics
retained, nothing recomputed). -/
def map_denormalize_x (s : DState) : Except Err DState :=
  if s.freeze_statistics then .error .frozen
  else .ok { s with is_normalized_x := false }

/-- `map_denormalize_y`: freeze check, clear `is_normalized_y`. -/
def map_denormalize_y (s : DState) : Except Err DState :=
  if s.freeze_statistics then .error .frozen
  else .ok { s with is_normalized_y := false }

/-- Elementwise `normalize_x(x)`: computes statistics lazily when either
cached value is missing, then returns `(x - x_mean) / x_standard_dev`. -/
def normalize_x (sqrtF : ℚ → ℚ) (s : DState) (x : ℚ) :
    Except Err (DState × ℚ) :=
  match s.x_mean, s.x_standard_dev with
  | some m, some d => .ok (s, (x - m) / d)
  | _, _ =>
    (update_x_statistics sqrtF s).map fun t =>
      (t, (x - t.x_mean.getD 0) / t.x_standard_dev.getD 1)

/-- Elementwise `denormalize_x(x)`: statistics lazily, then
`x * x_standard_dev + x_mean`. -/
def denormalize_x (sqrtF : ℚ → ℚ) (s : DState) (x : ℚ) :
    Except Err (DState × ℚ) :=
  match s.x_mean, s.x_standard_dev with
  | some m, some d => .ok (s, x * d + m)
  | _, _ =>
    (update_x_statistics sqrtF s).map fun t =>
      (t, x * t.x_standard_dev.getD 1 + t.x_mean.getD 0)

/-- Elementwise `normalize_y(y)`. -/
def normalize_y (sqrtF : ℚ → ℚ) (s : DState) (y : ℚ) :
    Except Err (DState × ℚ) :=
  match s.y_mean, s.y_standard_dev with
  | some m, some d => .ok (s, (y - m) / d)
  | _, _ =>
    (update_y_statistics sqrtF s).map fun t =>
      (t, (y - t.y_mean.getD 0) / t.y_standard_dev.getD 1)

/-- Elementwise `denormalize_y(y)`. -/
def denormalize_y (sqrtF : ℚ → ℚ) (s : DState) (y : ℚ) :
    Except Err (DState × ℚ) :=
  match s.y_mean, s.y_standard_dev with
  | some m, some d => .ok (s, y * d + m)
  | _, _ =>
    (update_y_statistics sqrtF s).map fun t =>
      (t, y * t.y_standard_dev.getD 1 + t.y_mean.getD 0)

/-!  ## `relabel` and `split` -/

/-- The shard-repacking loop of `relabel`, viewed on the concatenation of
the relabeled batches (the loop slices `target_size = shard_size -
y_shard_size` chunks out of each batch and accumulates them across batch
boundaries, so batch boundaries do not matter to the packing):
`set_shard_y(k, ...)` is called exactly when the accumulated chunk reaches
the row count of original shard `k` (`shard_size` is read from shard `k`
before any write to it), so shard `k` receives the next `|y_shards[k]|`
values of the concatenation.  A trailing shard that never fills (possible
only when the relabel function changes row counts) keeps its original
content: the loop only writes on a flush. -/
def repack_y_shards : List (List ℚ) → List ℚ → List (List ℚ)
  | [], _ => []
  | sh :: rest, flat =>
    (if sh.length ≤ flat.length then flat.take sh.length else sh)
      :: repack_y_shards rest (flat.drop sh.length)

/-- `relabel(relabel_function)`: freeze check; disable the transform; stream
every internal batch and apply the relabel function to it (receiving the raw
`(x_batch, y_batch)` and returning the new prediction values); write the new
predictions back into shards of the original per-shard row counts; re-enable
the transform and re-apply the current percentile filter via `subsample`
(which also refreshes statistics when normalization is active). -/
def relabel (sqrtF : ℚ → ℚ) (relabel_function : List (ℚ × ℚ) → List ℚ)
    (s : DState) : Except Err DState :=
  if s.freeze_statistics then .error .frozen
  else
    let batches := internal_batches (transform_disabled s)
    let new_y := (batches.map relabel_function).flatten
    let s1 := { s with y_shards := repack_y_shards s.y_shards new_y,
                       disable_transform := false }
    subsample sqrtF s1 s.dataset_max_percentile s.dataset_min_percentile

/-- The active-set index selection of `split`:
`np.where(np.logical_and(dataset_min_output <= y, dataset_max_output >= y))[0]`. -/
def active_ids (ys : List ℚ) (lo hi : EB) : List Nat :=
  (List.range ys.length).filter fun i =>
    EB.le lo (.val (ys.getD i 0)) && EB.le (.val (ys.getD i 0)) hi

/-- The hidden-set index selection of `split`, exactly as the source writes
it: `np.where(np.logical_and(dataset_min_output > y, dataset_max_output < y))[0]`
— an index is hidden only when its y is below the minimum threshold AND
above the maximum threshold at the same time. -/
def hidden_ids (ys : List ℚ) (lo hi : EB) : List Nat :=
  (List.range ys.length).filter fun i =>
    EB.lt (.val (ys.getD i 0)) lo && EB.lt hi (.val (ys.getD i 0))

/-- Follows the spec's words (§4.4, `split`): the hidden group is the set of
sample indices whose y lies outside the current percentile bounds — the
complement of the active group.  Declared only to compare with `hidden_ids`
above. -/
def spec_hidden_ids (ys : List ℚ) (lo hi : EB) : List Nat :=
  (List.range ys.length).filter fun i =>
    !(EB.le lo (.val (ys.getD i 0)) && EB.le (.val (ys.getD i 0)) hi)

/-- The shard packing of `split` (and `clone`), fueled so that it computes
by reduction: a partial shard is flushed once it reaches `shard_size` rows
(samples are appended one at a time, so with `shard_size = 0` every single
appended sample flushes immediately — hence the chunk size `max shard_size
1`), and a nonempty partial shard is flushed at the last sample.  One unit
of fuel is spent per flushed shard, and every flushed shard holds at least
one row, so `rows.length` fuel suffices. -/
def pack_shards_fuel {ρ : Type} (fuel : Nat) (shard_size : Nat)
    (rows : List ρ) : List (List ρ) :=
  match fuel with
  | 0 => if rows.isEmpty then [] else [rows]
  | fuel + 1 =>
    if rows.isEmpty then []
    else
      let chunk := max shard_size 1
      if rows.length ≤ chunk then [rows]
      else rows.take chunk :: pack_shards_fuel fuel shard_size (rows.drop chunk)

def pack_shards {ρ : Type} (shard_size : Nat) (rows : List ρ) :
    List (List ρ) :=
  pack_shards_fuel rows.length shard_size rows

/-- Modelled from the spec: `rebuild_dataset` is abstract in
`DatasetBuilder` and implemented by the dataset subclasses, which are not
among the sources.  Per the spec (§4.4, §9), `clone`/`split` return new
datasets "built via the same construction path as the original", i.e.
`__init__` over the new shard lists: fresh percentile bounds at 0/100 and
±infinity, normalization flags off, no cached statistics, transform
enabled, statistics not frozen, and `dataset_size` the streamed sample
count. -/
def rebuild_dataset (s : DState) (xs ys : List (List ℚ)) : DState :=
  { x_shards := xs
    y_shards := ys
    internal_batch_size := s.internal_batch_size
    dataset_min_percentile := 0
    dataset_max_percentile := 100
    dataset_min_output := .ninf
    dataset_max_output := .pinf
    dataset_size := ys.flatten.length
    is_normalized_x := false
    is_normalized_y := false
    x_mean := none
    y_mean := none
    x_standard_dev := none
    y_standard_dev := none
    disable_transform := false
    freeze_statistics := false }

/-- `split(fraction, shard_size, ...)`.  The two
`np.random.choice(group_size, size=int(fraction * group_size),
replace=False)` draws are modelled by the parameters `active_sel` /
`hidden_sel`: the positions into `active_ids` / `hidden_ids` that the random
generator picked (the source draws `int(fraction * group_size)` distinct
positions; a position beyond the group's size selects nothing here).  The
streamed routing of every raw sample to the training or validation buffer by
membership in the validation id set, the shard packing, the emptiness
checks, the rebuild, and the unconditional freezing of both results follow
the source. -/
def split (s : DState) (fraction : ℚ) (shard_size : Nat)
    (active_sel hidden_sel : List Nat) : Except Err (DState × DState) :=
  let rows := raw_rows s
  let original_y := rows.map Prod.snd
  let act := active_ids original_y s.dataset_min_output s.dataset_max_output
  let hid := hidden_ids original_y s.dataset_min_output s.dataset_max_output
  let validation_ids :=
    (active_sel.filterMap fun j => act[j]?)
      ++ (hidden_sel.filterMap fun j => hid[j]?)
  let validation_rows :=
    (rows.enum.filter fun p => p.1 ∈ validation_ids).map Prod.snd
  let training_rows :=
    (rows.enum.filter fun p => p.1 ∉ validation_ids).map Prod.snd
  let validation_shards := pack_shards shard_size validation_rows
  let training_shards := pack_shards shard_size training_rows
  if validation_shards.length = 0 then .error .emptySplit
  else if training_shards.length = 0 then .error .emptySplit
  else
    let dtraining :=
      { rebuild_dataset s (training_shards.map (List.map Prod.fst))
          (training_shards.map (List.map Prod.snd)) with
        freeze_statistics := true }
    let dvalidation :=
      { rebuild_dataset s (validation_shards.map (List.map Prod.fst))
          (validation_shards.map (List.map Prod.snd)) with
        freeze_statistics := true }
    .ok (dtraining, dvalidation)

/-!  ## General lemmas -/

theorem batch_transform_append (s : DState) (a b : List (ℚ × ℚ)) :
    batch_transform s (a ++ b) = batch_transform s a ++ batch_transform s b := by
  simp [batch_transform, List.filter_append]

theorem ds_transform_append (s : DState) (a b : List (ℚ × ℚ)) :
    ds_transform s (a ++ b) = ds_transform s a ++ ds_transform s b := by
  cases hd : s.disable_transform <;>
    simp [ds_transform, hd, batch_transform_append]

/-- Internal bulk reads see the transform of the full row sequence, provided
the final shard is nonempty (a trailing empty shard strands the pending
buffer — see the corrected claim on batch iteration). -/
theorem internal_batches_flatten (s : DState)
    (hbs : s.internal_batch_size ≠ 0)
    (hlast : (shard_pairs s).getLast? ≠ some []) :
    (internal_batches s).flatten = ds_transform s (shard_pairs s).flatten :=
  process_shards_join _ _ (ds_transform_append s) hbs _ hlast

theorem shard_pairs_transform_disabled (s : DState) :
    shard_pairs (transform_disabled s) = shard_pairs s := rfl

theorem raw_rows_eq (s : DState) (hbs : s.internal_batch_size ≠ 0)
    (hlast : (shard_pairs s).getLast? ≠ some []) :
    raw_rows s = (shard_pairs s).flatten := by
  unfold raw_rows
  rw [internal_batches_flatten (transform_disabled s) hbs hlast]
  rfl

theorem flatten_map_map {α β : Type} (f : α → β) (l : List (List α)) :
    (l.map (List.map f)).flatten = l.flatten.map f := by
  induction l with
  | nil => rfl
  | cons a t ih => simp only [List.map_cons, List.flatten_cons, List.map_append, ih]

/-- Invariant of the first statistics pass: starting from a nonnegative
sample count `n` and mean `μ`, the fold returns the total count and a value
whose product with the total count is `μ * n` plus the sum of all batched
values — i.e. the running update telescopes to the exact weighted mean. -/
theorem foldl_mean_step (batches : List (List ℚ)) :
    ∀ n μ : ℚ, 0 ≤ n →
      (batches.foldl mean_step (n, μ)).1 = n + batches.flatten.length ∧
      (batches.foldl mean_step (n, μ)).2 * (batches.foldl mean_step (n, μ)).1
        = μ * n + batches.flatten.sum := by
  induction batches with
  | nil =>
    intro n μ hn
    refine ⟨by simp, by simp⟩
  | cons batch rest ih =>
    intro n μ hn
    simp only [List.foldl_cons]
    have hb : (0:ℚ) ≤ (batch.length : ℚ) := by positivity
    have hstep : mean_step (n, μ) batch
        = (n + batch.length,
           μ * (n / (n + batch.length)) + batch.sum / (n + batch.length)) := rfl
    rw [hstep]
    have hn' : (0:ℚ) ≤ n + batch.length := by linarith
    obtain ⟨h1, h2⟩ := ih (n + batch.length)
      (μ * (n / (n + batch.length)) + batch.sum / (n + batch.length)) hn'
    have key : (μ * (n / (n + (batch.length:ℚ)))
        + batch.sum / (n + (batch.length:ℚ))) * (n + (batch.length:ℚ))
        = μ * n + batch.sum := by
      by_cases hz : n + (batch.length:ℚ) = 0
      · have hn0 : n = 0 := by linarith
        have hb0 : (batch.length:ℚ) = 0 := by linarith
        have hbnil : batch = [] := by
          have hl : batch.length = 0 := by exact_mod_cast hb0
          exact List.eq_nil_of_length_eq_zero hl
        subst hbnil
        simp [hn0]
      · field_simp
    refine ⟨?_, ?_⟩
    · rw [h1]
      simp only [List.flatten_cons, List.length_append]
      push_cast
      ring
    · rw [h2, key]
      simp only [List.flatten_cons, List.sum_append]
      ring

/-- Invariant of the second statistics pass, over squared deviations. -/
theorem foldl_variance_step (m : ℚ) (batches : List (List ℚ)) :
    ∀ n μ : ℚ, 0 ≤ n →
      (batches.foldl (variance_step m) (n, μ)).1
        = n + batches.flatten.length ∧
      (batches.foldl (variance_step m) (n, μ)).2
          * (batches.foldl (variance_step m) (n, μ)).1
        = μ * n + (batches.flatten.map fun v => (v - m) ^ 2).sum := by
  induction batches with
  | nil =>
    intro n μ hn
    refine ⟨by simp, by simp⟩
  | cons batch rest ih =>
    intro n μ hn
    simp only [List.foldl_cons]
    have hb : (0:ℚ) ≤ (batch.length : ℚ) := by positivity
    have hstep : variance_step m (n, μ) batch
        = (n + batch.length,
           μ * (n / (n + batch.length))
             + (batch.map fun v => (v - m) ^ 2).sum / (n + batch.length)) := rfl
    rw [hstep]
    have hn' : (0:ℚ) ≤ n + batch.length := by linarith
    obtain ⟨h1, h2⟩ := ih (n + batch.length)
      (μ * (n / (n + batch.length))
        + (batch.map fun v => (v - m) ^ 2).sum / (n + batch.length)) hn'
    have key : (μ * (n / (n + (batch.length:ℚ)))
        + (batch.map fun v => (v - m) ^ 2).sum / (n + (batch.length:ℚ)))
          * (n + (batch.length:ℚ))
        = μ * n + (batch.map fun v => (v - m) ^ 2).sum := by
      by_cases hz : n + (batch.length:ℚ) = 0
      · have hn0 : n = 0 := by linarith
        have hb0 : (batch.length:ℚ) = 0 := by linarith
        have hbnil : batch = [] := by
          have hl : batch.length = 0 := by exact_mod_cast hb0
          exact List.eq_nil_of_length_eq_zero hl
        subst hbnil
        simp [hn0]
      · field_simp
    refine ⟨?_, ?_⟩
    · rw [h1]
      simp only [List.flatten_cons, List.length_append]
      push_cast
      ring
    · rw [h2, key]
      simp only [List.flatten_cons, List.map_append, List.sum_append]
      ring

/-- The empirical mean of a list of values. -/
def list_mean (l : List ℚ) : ℚ := l.sum / l.length

/-- The empirical (population) variance of a list of values. -/
def list_variance (l : List ℚ) : ℚ :=
  ((l.map fun v => (v - list_mean l) ^ 2).sum) / l.length

theorem running_mean_pass_eq (batches : List (List ℚ))
    (h : batches.flatten ≠ []) :
    (running_mean_pass batches).2 = list_mean batches.flatten := by
  obtain ⟨h1, h2⟩ := foldl_mean_step batches 0 0 le_rfl
  have hp : 0 < batches.flatten.length := List.length_pos.mpr h
  have hlen : (0:ℚ) < (batches.flatten.length : ℚ) := by exact_mod_cast hp
  unfold running_mean_pass
  unfold list_mean
  rw [eq_div_iff hlen.ne']
  have h1q : (batches.foldl mean_step (0, 0)).1 = (batches.flatten.length : ℚ) := by
    rw [h1]; ring
  calc (batches.foldl mean_step (0, 0)).2 * (batches.flatten.length : ℚ)
      = (batches.foldl mean_step (0, 0)).2
          * (batches.foldl mean_step (0, 0)).1 := by rw [h1q]
    _ = 0 * 0 + batches.flatten.sum := h2
    _ = batches.flatten.sum := by ring

theorem running_variance_pass_eq (m : ℚ) (batches : List (List ℚ))
    (h : batches.flatten ≠ []) :
    (running_variance_pass m batches).2
      = ((batches.flatten.map fun v => (v - m) ^ 2).sum)
          / batches.flatten.length := by
  obtain ⟨h1, h2⟩ := foldl_variance_step m batches 0 0 le_rfl
  have hp : 0 < batches.flatten.length := List.length_pos.mpr h
  have hlen : (0:ℚ) < (batches.flatten.length : ℚ) := by exact_mod_cast hp
  unfold running_variance_pass
  rw [eq_div_iff hlen.ne']
  have h1q : (batches.foldl (variance_step m) (0, 0)).1
      = (batches.flatten.length : ℚ) := by
    rw [h1]; ring
  calc (batches.foldl (variance_step m) (0, 0)).2 * (batches.flatten.length : ℚ)
      = (batches.foldl (variance_step m) (0, 0)).2
          * (batches.foldl (variance_step m) (0, 0)).1 := by rw [h1q]
    _ = 0 * 0 + (batches.flatten.map fun v => (v - m) ^ 2).sum := h2
    _ = (batches.flatten.map fun v => (v - m) ^ 2).sum := by ring

/-!  ## Helper definitions for the claim statements -/

/-- The rows of the dataset that survive the current percentile filter, in
shard-index-then-row-offset order. -/
def filtered_rows (s : DState) : List (ℚ × ℚ) :=
  (shard_pairs s).flatten.filter fun r => in_bounds s r.2

/-- A dataset state as `__init__` leaves it for fully in-memory shards:
default percentile bounds, normalization off, no cached statistics,
transform enabled, statistics not frozen, the default
`internal_batch_size = 32`, and `dataset_size` the streamed sample count
(the total stored row count for the well-formed example states below). -/
def init_state (xs ys : List (List ℚ)) : DState where
  x_shards := xs
  y_shards := ys
  internal_batch_size := 32
  dataset_min_percentile := 0
  dataset_max_percentile := 100
  dataset_min_output := .ninf
  dataset_max_output := .pinf
  dataset_size := ys.flatten.length
  is_normalized_x := false
  is_normalized_y := false
  x_mean := none
  y_mean := none
  x_standard_dev := none
  y_standard_dev := none
  disable_transform := false
  freeze_statistics := false

/-- Follows the spec's words (§4.3: "statistics are always derived from
canonical (untransformed) values"): the mean of the canonical untransformed
— unfiltered and unnormalized — design values.  Declared only to compare
with what `update_x_statistics` caches. -/
def spec_canonical_x_mean (s : DState) : ℚ :=
  list_mean ((shard_pairs s).flatten.map Prod.fst)

/-!  ## Example states for the claims -/

/-- An unfiltered dataset of 10 shards of 100 rows each (rows numbered
0..999 across shards). -/
def ex_10x100 : DState :=
  init_state
    ((List.range 10).map fun i => (List.range 100).map fun j => ((100 * i + j : ℕ) : ℚ))
    ((List.range 10).map fun i => (List.range 100).map fun j => ((100 * i + j : ℕ) : ℚ))

/-- One stored row followed by an empty trailing shard. -/
def trailing_empty_state : DState := init_state [[0], []] [[0], []]

/-!  ## Claims -/

/-- C9: `iterate_batches` fails — and fails with `InvalidArgument` — exactly
when `batch_size < 1` or neither channel is requested; the check is the
generator's first statement, and on failure the result carries no batches
and no shard was touched (the error branch of the definition never reads
`x_shards`/`y_shards`). -/
theorem iterate_batches_invalid_argument (s : DState) (batch_size : ℤ)
    (return_x return_y drop_remainder : Bool) :
    ((∃ e, iterate_batches s batch_size return_x return_y drop_remainder
        = .error e)
      ↔ batch_size < 1 ∨ (return_x = false ∧ return_y = false)) ∧
    (∀ e, iterate_batches s batch_size return_x return_y drop_remainder
        = .error e → e = .invalidArgument) := by
  unfold iterate_batches
  by_cases h : batch_size < 1 ∨ (return_x = false ∧ return_y = false)
  · rw [if_pos h]
    refine ⟨⟨fun _ => h, fun _ => ⟨.invalidArgument, rfl⟩⟩, ?_⟩
    intro e he
    exact (Except.error.injEq _ _ ▸ he).symm
  · rw [if_neg h]
    refine ⟨⟨?_, fun hc => absurd hc h⟩, ?_⟩
    · rintro ⟨e, he⟩
      exact absurd he (by simp)
    · intro e he
      exact absurd he (by simp)

/-- C4 (defect): the bounds check of `get_shard_x` / `get_shard_y` /
`set_shard_x` / `set_shard_y` is the chained comparison
`0 < shard_id >= self.get_num_shards()`, i.e. `0 < shard_id AND shard_id >=
num_shards`.  A negative `shard_id` therefore passes the check and Python's
negative indexing silently returns the shard counted from the end: on a
two-shard dataset `get_shard_y(-1)` returns the last shard's data instead
of raising.  With no shards, `shard_id = 0` also passes the check and the
subsequent subscript fails with Python's own `IndexError`, not the
builder's bounds error.  (Ids at or past `num_shards` are rejected as
documented.) -/
theorem get_shard_bounds_check_defect :
    get_shard_y (init_state [[1], [2]] [[5], [6]]) (-1) = .ok [6] ∧
    shard_id_check_fails (init_state [[1], [2]] [[5], [6]]) (-1) = false ∧
    get_shard_x (init_state [] []) 0 = .error .pyIndexError ∧
    get_shard_y (init_state [[1], [2]] [[5], [6]]) 2
      = .error .indexOutOfRange ∧
    (set_shard_x (init_state [[1], [2]] [[5], [6]]) (-1) [9]).map
        (fun t => t.x_shards) = .ok [[1], [9]] := by decide

/-- C2 (defect): with thresholds `min_output = 2`, `max_output = 3` over
predictions `[1, 2, 3, 4]`, the hidden set `split` computes —
`np.where(np.logical_and(min_output > y, max_output < y))[0]` — is empty,
since no value is below the minimum and above the maximum at once, while
the spec's hidden group (every index outside the bounds) is `{0, 3}`;
samples 0 and 3 belong to neither group, so they are never eligible for the
hidden-group validation draw and always land in the training set. -/
theorem split_hidden_group_is_empty :
    hidden_ids [1, 2, 3, 4] (.val 2) (.val 3) = [] ∧
    spec_hidden_ids [1, 2, 3, 4] (.val 2) (.val 3) = [0, 3] ∧
    active_ids [1, 2, 3, 4] (.val 2) (.val 3) = [1, 2] := by decide

/-- C1 counterexample: a dataset holding one row followed by an empty
trailing shard.  `iterate_batches(2, drop_remainder=False)` yields no batch
at all — the flush condition lives inside the final shard's row loop, which
never runs for an empty shard — so the concatenation of all yielded batches
is empty while the dataset stores one (unfiltered) row. -/
theorem iterate_batches_drops_trailing_buffer :
    iterate_batches trailing_empty_state 2 true true false = .ok [] ∧
    trailing_empty_state.dataset_size = 1 ∧
    trailing_empty_state.disable_transform = false ∧
    (shard_pairs trailing_empty_state).flatten = [(0, 0)] ∧
    ds_transform trailing_empty_state
      (shard_pairs trailing_empty_state).flatten = [(0, 0)] := by decide

set_option maxRecDepth 16000 in
/-- C1 (amended): for every `batch_size ≥ 1`, concatenating in yield order
the batches of `iterate_batches(batch_size, drop_remainder=False)`
reconstructs exactly the transform of the dataset's row sequence in
shard-index-then-row-offset order — the filtered rows under the active
transform, or every stored row when the transform is disabled — *provided
the final shard is nonempty* (a trailing empty shard strands the final
partial batch; see the counterexample).  In particular, on an unfiltered
dataset of 10 shards of 100 rows, batch size 250 yields exactly 4 batches
of 250 rows (1000 rows total), and batch size 300 with
`drop_remainder=True` yields exactly 3 batches of 300 rows, dropping the
final 100. -/
theorem iterate_batches_reconstructs (s : DState) (batch_size : ℤ)
    (hbs : 1 ≤ batch_size)
    (hlast : (shard_pairs s).getLast? ≠ some []) :
    (∃ B, iterate_batches s batch_size true true false = .ok B ∧
      B.flatten = ds_transform s (shard_pairs s).flatten ∧
      (s.disable_transform = true → B.flatten = (shard_pairs s).flatten)) ∧
    (iterate_batches ex_10x100 250 true true false).map (List.map List.length)
      = .ok [250, 250, 250, 250] ∧
    (iterate_batches ex_10x100 300 true true true).map (List.map List.length)
      = .ok [300, 300, 300] := by
  refine ⟨?_, by decide, by decide⟩
  have hcond : ¬(batch_size < 1 ∨ (true = false ∧ true = false)) := by
    push_neg
    exact ⟨by omega, by simp⟩
  refine ⟨_, by rw [iterate_batches, if_neg hcond], ?_, ?_⟩
  · exact process_shards_join _ _ (ds_transform_append s) (by omega) _ hlast
  · intro hdis
    rw [process_shards_join _ _ (ds_transform_append s) (by omega) _ hlast]
    simp [ds_transform, hdis]

/-- C1 witness: the reconstruction theorem applied to the concrete
10-shard-by-100-row dataset at batch size 250. -/
theorem iterate_batches_reconstructs_witness :
    (∃ B, iterate_batches ex_10x100 250 true true false = .ok B ∧
      B.flatten = ds_transform ex_10x100 (shard_pairs ex_10x100).flatten ∧
      (ex_10x100.disable_transform = true →
        B.flatten = (shard_pairs ex_10x100).flatten)) ∧
    (iterate_batches ex_10x100 250 true true false).map (List.map List.length)
      = .ok [250, 250, 250, 250] ∧
    (iterate_batches ex_10x100 300 true true true).map (List.map List.length)
      = .ok [300, 300, 300] :=
  iterate_batches_reconstructs ex_10x100 250 (by decide) (by decide)

theorem zip_append_right {α β : Type} :
    ∀ (a : List α) (b : List β) (e : List α), b.length ≤ a.length →
      (a ++ e).zip b = a.zip b := by
  intro a
  induction a with
  | nil =>
    intro b e h
    have hb : b = [] := List.eq_nil_of_length_eq_zero (by simpa using h)
    simp [hb]
  | cons x xs ih =>
    intro b e h
    cases b with
    | nil => simp
    | cons y ys =>
      simp only [List.cons_append, List.zip_cons_cons]
      rw [ih ys e (by simpa using h)]

theorem zip_append_left {α β : Type} :
    ∀ (a : List α) (b : List β) (e : List β), a.length ≤ b.length →
      a.zip (b ++ e) = a.zip b := by
  intro a
  induction a with
  | nil =>
    intro b e h
    simp
  | cons x xs ih =>
    intro b e h
    cases b with
    | nil => exact absurd h (by simp)
    | cons y ys =>
      simp only [List.cons_append, List.zip_cons_cons]
      rw [ih ys e (by simpa using h)]

/-- C10 counterexample: excess shards are not invisible to every read.  On
x-shard list `[[1], [2]]` and y-shard list `[[5]]`, `get_num_shards` is 1,
yet `get_shard_x(-1)` passes the (defective) bounds check and returns the
excess shard `[2]`; and on x-shard list `[[9]]` with an *empty* y-shard
list, `get_num_shards` is 0, yet the *nonnegative* id 0 also passes the
check (`0 < 0` is false) and `get_shard_x(0)` returns the excess shard
`[9]` instead of reporting an error. -/
theorem excess_shard_reachable :
    (get_num_shards (init_state [[1], [2]] [[5]]) = 1 ∧
      get_shard_x (init_state [[1], [2]] [[5]]) (-1) = .ok [2]) ∧
    (get_num_shards (init_state [[9]] []) = 0 ∧
      get_shard_x (init_state [[9]] []) 0 = .ok [9]) := by decide

/-- C10 (amended): `get_num_shards` is the number of index-paired shard
positions — the length of the shorter of the two constructor shard lists
(`__init__` counts one increment per element of `zip(x_shards, y_shards)`).
The excess shards of the longer list — on either side — are silently
ignored, with no error reported, by iteration and by every read or write
with an in-range shard id: extending the longer list changes neither
`get_num_shards`, nor the shard walk of `iterate_batches`, nor any
`get_shard_x` / `get_shard_y` / `set_shard_x` / `set_shard_y` outcome at
ids in `[0, get_num_shards)` (writes write the same shard and leave the
extension untouched).  The excess shards are *not* unreachable, however:
through the defective bounds check (C4), any negative shard id reaches one
by Python negative indexing, and when one shard list is empty while the
other is not — so that `get_num_shards() = 0` — the nonnegative id 0 also
passes the check and reads the excess head shard. -/
theorem get_num_shards_min_and_excess_ignored (s : DState)
    (extra : List (List ℚ)) :
    get_num_shards s = min s.x_shards.length s.y_shards.length ∧
    (s.y_shards.length ≤ s.x_shards.length →
      get_num_shards { s with x_shards := s.x_shards ++ extra }
        = get_num_shards s ∧
      shard_pairs { s with x_shards := s.x_shards ++ extra } = shard_pairs s ∧
      (∀ batch_size return_x return_y drop_remainder,
        iterate_batches { s with x_shards := s.x_shards ++ extra } batch_size
            return_x return_y drop_remainder
          = iterate_batches s batch_size return_x return_y drop_remainder) ∧
      (∀ i : ℤ, 0 ≤ i → i < (get_num_shards s : ℤ) →
        get_shard_x { s with x_shards := s.x_shards ++ extra } i
            = get_shard_x s i ∧
        get_shard_y { s with x_shards := s.x_shards ++ extra } i
            = get_shard_y s i ∧
        (∀ v, set_shard_y { s with x_shards := s.x_shards ++ extra } i v
            = (set_shard_y s i v).map
                fun t => { t with x_shards := t.x_shards ++ extra }) ∧
        (∀ v, set_shard_x { s with x_shards := s.x_shards ++ extra } i v
            = (set_shard_x s i v).map
                fun t => { t with x_shards := t.x_shards ++ extra }))) ∧
    (s.x_shards.length ≤ s.y_shards.length →
      get_num_shards { s with y_shards := s.y_shards ++ extra }
        = get_num_shards s ∧
      shard_pairs { s with y_shards := s.y_shards ++ extra } = shard_pairs s ∧
      (∀ batch_size return_x return_y drop_remainder,
        iterate_batches { s with y_shards := s.y_shards ++ extra } batch_size
            return_x return_y drop_remainder
          = iterate_batches s batch_size return_x return_y drop_remainder) ∧
      (∀ i : ℤ, 0 ≤ i → i < (get_num_shards s : ℤ) →
        get_shard_x { s with y_shards := s.y_shards ++ extra } i
            = get_shard_x s i ∧
        get_shard_y { s with y_shards := s.y_shards ++ extra } i
            = get_shard_y s i ∧
        (∀ v, set_shard_x { s with y_shards := s.y_shards ++ extra } i v
            = (set_shard_x s i v).map
                fun t => { t with y_shards := t.y_shards ++ extra }) ∧
        (∀ v, set_shard_y { s with y_shards := s.y_shards ++ extra } i v
            = (set_shard_y s i v).map
                fun t => { t with y_shards := t.y_shards ++ extra }))) ∧
    (s.y_shards = [] → s.x_shards ≠ [] →
      get_shard_x s 0 = .ok (s.x_shards.getD 0 [])) ∧
    (s.x_shards = [] → s.y_shards ≠ [] →
      get_shard_y s 0 = .ok (s.y_shards.getD 0 [])) := by
  refine ⟨?_, ?_, ?_, ?_, ?_⟩
  · unfold get_num_shards
    rw [List.length_zip]
  · intro hx
    have hzip : ({ s with x_shards := s.x_shards ++ extra } : DState).x_shards.zip
        ({ s with x_shards := s.x_shards ++ extra } : DState).y_shards
        = s.x_shards.zip s.y_shards := zip_append_right _ _ _ hx
    have hnum : get_num_shards { s with x_shards := s.x_shards ++ extra }
        = get_num_shards s := by
      unfold get_num_shards
      rw [hzip]
    have hnum_le : get_num_shards s ≤ s.x_shards.length := by
      unfold get_num_shards
      rw [List.length_zip]
      omega
    have hpairs : shard_pairs { s with x_shards := s.x_shards ++ extra }
        = shard_pairs s := by
      unfold shard_pairs
      rw [hnum]
      apply List.map_congr_left
      intro i hi
      have hilt : i < get_num_shards s := List.mem_range.mp hi
      have : (s.x_shards ++ extra).getD i [] = s.x_shards.getD i [] :=
        List.getD_append _ _ _ _ (by omega)
      simp only [this]
    refine ⟨hnum, hpairs, ?_, ?_⟩
    · intro batch_size return_x return_y drop_remainder
      have hds : ds_transform { s with x_shards := s.x_shards ++ extra }
          = ds_transform s := rfl
      unfold iterate_batches
      rw [hpairs, hds]
    · intro i h0 hlt
      have hcheck : shard_id_check_fails { s with x_shards := s.x_shards ++ extra } i
          = shard_id_check_fails s i := by
        unfold shard_id_check_fails
        rw [hnum]
      have hxidx : pyIndex (s.x_shards ++ extra) i = pyIndex s.x_shards i := by
        unfold pyIndex
        have hip : ¬ i < 0 := by omega
        simp only [hip, if_false]
        have hileni : i < (s.x_shards.length : ℤ) := by
          have := hnum_le
          omega
        have hilen : 0 ≤ i ∧ i < ((s.x_shards ++ extra).length : ℤ) := by
          simp only [List.length_append]
          push_cast
          omega
        rw [dif_pos hilen, dif_pos ⟨h0, hileni⟩]
        congr 1
        apply List.getElem_append_left
      have hxset : ∀ v, pySet (s.x_shards ++ extra) i v
          = (pySet s.x_shards i v).map fun l => l ++ extra := by
        intro v
        unfold pySet
        have hip : ¬ i < 0 := by omega
        simp only [hip, if_false]
        have hileni : i < (s.x_shards.length : ℤ) := by
          have := hnum_le
          omega
        have hilen : 0 ≤ i ∧ i < ((s.x_shards ++ extra).length : ℤ) := by
          simp only [List.length_append]
          push_cast
          omega
        rw [if_pos hilen, if_pos ⟨h0, hileni⟩]
        simp only [Except.map]
        congr 1
        apply List.set_append_left
        omega
      refine ⟨?_, ?_, ?_, ?_⟩
      · show (if shard_id_check_fails { s with x_shards := s.x_shards ++ extra } i
            then Except.error Err.indexOutOfRange
            else pyIndex (s.x_shards ++ extra) i) = get_shard_x s i
        rw [hcheck, hxidx]
        rfl
      · show (if shard_id_check_fails { s with x_shards := s.x_shards ++ extra } i
            then Except.error Err.indexOutOfRange
            else pyIndex s.y_shards i) = get_shard_y s i
        rw [hcheck]
        rfl
      · intro v
        unfold set_shard_y
        rw [hcheck]
        by_cases hc : shard_id_check_fails s i = true
        · simp only [hc, if_true]
          rfl
        · simp only [Bool.not_eq_true] at hc
          simp only [hc, Bool.false_eq_true, if_false]
          cases hpy : pySet s.y_shards i v <;> simp [hpy, Except.map]
      · intro v
        unfold set_shard_x
        rw [hcheck]
        by_cases hc : shard_id_check_fails s i = true
        · simp only [hc, if_true]
          rfl
        · simp only [Bool.not_eq_true] at hc
          simp only [hc, Bool.false_eq_true, if_false]
          rw [hxset v]
          cases hpy : pySet s.x_shards i v <;> simp [hpy, Except.map]
  · intro hy
    have hzip : ({ s with y_shards := s.y_shards ++ extra } : DState).x_shards.zip
        ({ s with y_shards := s.y_shards ++ extra } : DState).y_shards
        = s.x_shards.zip s.y_shards := zip_append_left _ _ _ hy
    have hnum : get_num_shards { s with y_shards := s.y_shards ++ extra }
        = get_num_shards s := by
      unfold get_num_shards
      rw [hzip]
    have hnum_le : get_num_shards s ≤ s.y_shards.length := by
      unfold get_num_shards
      rw [List.length_zip]
      omega
    have hpairs : shard_pairs { s with y_shards := s.y_shards ++ extra }
        = shard_pairs s := by
      unfold shard_pairs
      rw [hnum]
      apply List.map_congr_left
      intro i hi
      have hilt : i < get_num_shards s := List.mem_range.mp hi
      have : (s.y_shards ++ extra).getD i [] = s.y_shards.getD i [] :=
        List.getD_append _ _ _ _ (by omega)
      simp only [this]
    refine ⟨hnum, hpairs, ?_, ?_⟩
    · intro batch_size return_x return_y drop_remainder
      have hds : ds_transform { s with y_shards := s.y_shards ++ extra }
          = ds_transform s := rfl
      unfold iterate_batches
      rw [hpairs, hds]
    · intro i h0 hlt
      have hcheck : shard_id_check_fails { s with y_shards := s.y_shards ++ extra } i
          = shard_id_check_fails s i := by
        unfold shard_id_check_fails
        rw [hnum]
      have hyidx : pyIndex (s.y_shards ++ extra) i = pyIndex s.y_shards i := by
        unfold pyIndex
        have hip : ¬ i < 0 := by omega
        simp only [hip, if_false]
        have hileni : i < (s.y_shards.length : ℤ) := by
          have := hnum_le
          omega
        have hilen : 0 ≤ i ∧ i < ((s.y_shards ++ extra).length : ℤ) := by
          simp only [List.length_append]
          push_cast
          omega
        rw [dif_pos hilen, dif_pos ⟨h0, hileni⟩]
        congr 1
        apply List.getElem_append_left
      have hyset : ∀ v, pySet (s.y_shards ++ extra) i v
          = (pySet s.y_shards i v).map fun l => l ++ extra := by
        intro v
        unfold pySet
        have hip : ¬ i < 0 := by omega
        simp only [hip, if_false]
        have hileni : i < (s.y_shards.length : ℤ) := by
          have := hnum_le
          omega
        have hilen : 0 ≤ i ∧ i < ((s.y_shards ++ extra).length : ℤ) := by
          simp only [List.length_append]
          push_cast
          omega
        rw [if_pos hilen, if_pos ⟨h0, hileni⟩]
        simp only [Except.map]
        congr 1
        apply List.set_append_left
        omega
      refine ⟨?_, ?_, ?_, ?_⟩
      · show (if shard_id_check_fails { s with y_shards := s.y_shards ++ extra } i
            then Except.error Err.indexOutOfRange
            else pyIndex s.x_shards i) = get_shard_x s i
        rw [hcheck]
        rfl
      · show (if shard_id_check_fails { s with y_shards := s.y_shards ++ extra } i
            then Except.error Err.indexOutOfRange
            else pyIndex (s.y_shards ++ extra) i) = get_shard_y s i
        rw [hcheck, hyidx]
        rfl
      · intro v
        unfold set_shard_x
        rw [hcheck]
        by_cases hc : shard_id_check_fails s i = true
        · simp only [hc, if_true]
          rfl
        · simp only [Bool.not_eq_true] at hc
          simp only [hc, Bool.false_eq_true, if_false]
          cases hpy : pySet s.x_shards i v <;> simp [hpy, Except.map]
      · intro v
        unfold set_shard_y
        rw [hcheck]
        by_cases hc : shard_id_check_fails s i = true
        · simp only [hc, if_true]
          rfl
        · simp only [Bool.not_eq_true] at hc
          simp only [hc, Bool.false_eq_true, if_false]
          rw [hyset v]
          cases hpy : pySet s.y_shards i v <;> simp [hpy, Except.map]
  · intro hy hxne
    obtain ⟨a, t, hxs⟩ : ∃ a t, s.x_shards = a :: t := by
      cases hc : s.x_shards with
      | nil => exact absurd hc hxne
      | cons a t => exact ⟨a, t, rfl⟩
    have hcheck : shard_id_check_fails s 0 = false := by
      unfold shard_id_check_fails
      simp
    unfold get_shard_x
    rw [hcheck]
    simp only [Bool.false_eq_true, if_false]
    rw [hxs]
    unfold pyIndex
    simp only [show ¬ ((0 : ℤ) < 0) from by omega, if_false]
    rw [dif_pos ⟨le_refl 0, by exact_mod_cast Nat.succ_pos t.length⟩]
    rfl
  · intro hx hyne
    obtain ⟨a, t, hys⟩ : ∃ a t, s.y_shards = a :: t := by
      cases hc : s.y_shards with
      | nil => exact absurd hc hyne
      | cons a t => exact ⟨a, t, rfl⟩
    have hcheck : shard_id_check_fails s 0 = false := by
      unfold shard_id_check_fails
      simp
    unfold get_shard_y
    rw [hcheck]
    simp only [Bool.false_eq_true, if_false]
    rw [hys]
    unfold pyIndex
    simp only [show ¬ ((0 : ℤ) < 0) from by omega, if_false]
    rw [dif_pos ⟨le_refl 0, by exact_mod_cast Nat.succ_pos t.length⟩]
    rfl

/-- C10 witness: the amended statement at concrete inputs — the min-length
count, the invariance of the count under extending the longer x list, and
the id-0 leak on an empty y-shard list next to a nonempty x-shard list. -/
theorem get_num_shards_min_witness :
    get_num_shards (init_state [[1], [2]] [[5]]) = min 2 1 ∧
    get_num_shards { init_state [[1], [2]] [[5]] with
      x_shards := (init_state [[1], [2]] [[5]]).x_shards ++ [[9]] }
      = get_num_shards (init_state [[1], [2]] [[5]]) ∧
    get_shard_x (init_state [[9]] []) 0 = .ok [9] := by
  have h := get_num_shards_min_and_excess_ignored
    (init_state [[1], [2]] [[5]]) [[9]]
  have h2 := get_num_shards_min_and_excess_ignored (init_state [[9]] []) []
  exact ⟨h.1, (h.2.1 (by decide)).1, h2.2.2.2.1 rfl (by decide)⟩

/-- C5: both datasets returned by `split` have `freeze_statistics = true`
unconditionally, and on any dataset with `freeze_statistics = true` every
mutating operation — `subsample`, `relabel`, `map_normalize_x/y`,
`map_denormalize_x/y`, `update_x_statistics`, `update_y_statistics` — fails
with `FrozenStatisticsError`.  The freeze check is each mutator's first
statement, so the failing call constructs no new state: the error carries
nothing and the dataset is unchanged. -/
theorem split_freezes_and_frozen_mutations_fail (sqrtF : ℚ → ℚ)
    (fn : List (ℚ × ℚ) → List ℚ) (s : DState) (fraction mx mn : ℚ)
    (shard_size : Nat) (active_sel hidden_sel : List Nat)
    (dtrain dval : DState)
    (hsplit : split s fraction shard_size active_sel hidden_sel
      = .ok (dtrain, dval)) :
    dtrain.freeze_statistics = true ∧ dval.freeze_statistics = true ∧
    (∀ t : DState, t.freeze_statistics = true →
      subsample sqrtF t mx mn = .error .frozen ∧
      relabel sqrtF fn t = .error .frozen ∧
      map_normalize_x sqrtF t = .error .frozen ∧
      map_normalize_y sqrtF t = .error .frozen ∧
      map_denormalize_x t = .error .frozen ∧
      map_denormalize_y t = .error .frozen ∧
      update_x_statistics sqrtF t = .error .frozen ∧
      update_y_statistics sqrtF t = .error .frozen) := by
  have hfr : dtrain.freeze_statistics = true ∧ dval.freeze_statistics = true := by
    simp only [split] at hsplit
    split at hsplit
    · exact absurd hsplit (by simp)
    · split at hsplit
      · exact absurd hsplit (by simp)
      · simp only [Except.ok.injEq, Prod.mk.injEq] at hsplit
        obtain ⟨h1, h2⟩ := hsplit
        exact ⟨by rw [← h1], by rw [← h2]⟩
  refine ⟨hfr.1, hfr.2, ?_⟩
  intro t ht
  refine ⟨?_, ?_, ?_, ?_, ?_, ?_, ?_, ?_⟩ <;>
    simp [subsample, relabel, map_normalize_x, map_normalize_y,
      map_denormalize_x, map_denormalize_y, update_x_statistics,
      update_y_statistics, ht]

/-- Prototype split input for the C5 witness. -/
def w5_input : DState := init_state [[1, 2]] [[5, 6]]

/-- The training result of `split` on `w5_input` with validation draw `[0]`. -/
def w5_train : DState :=
  { rebuild_dataset w5_input [[2]] [[6]] with freeze_statistics := true }

/-- The validation result of `split` on `w5_input` with validation draw `[0]`. -/
def w5_val : DState :=
  { rebuild_dataset w5_input [[1]] [[5]] with freeze_statistics := true }

/-- C5 witness: the theorem applied to a concrete split of a two-sample
dataset (fraction 1/2, the random draw picking active position 0). -/
theorem split_freezes_witness :
    w5_train.freeze_statistics = true ∧ w5_val.freeze_statistics = true ∧
    subsample (fun q => q) w5_train 100 0 = .error .frozen ∧
    relabel (fun q => q) (fun b => b.map Prod.snd) w5_train = .error .frozen ∧
    map_normalize_x (fun q => q) w5_train = .error .frozen ∧
    map_normalize_y (fun q => q) w5_train = .error .frozen ∧
    map_denormalize_x w5_train = .error .frozen ∧
    map_denormalize_y w5_train = .error .frozen ∧
    update_x_statistics (fun q => q) w5_train = .error .frozen ∧
    update_y_statistics (fun q => q) w5_train = .error .frozen := by
  have h := split_freezes_and_frozen_mutations_fail (fun q => q)
    (fun b => b.map Prod.snd) w5_input (1/2) 100 0 5000 [0] []
    w5_train w5_val (by with_unfolding_all decide)
  obtain ⟨h1, h2, h3⟩ := h
  have hm := h3 w5_train h1
  exact ⟨h1, h2, hm.1, hm.2.1, hm.2.2.1, hm.2.2.2.1, hm.2.2.2.2.1,
    hm.2.2.2.2.2.1, hm.2.2.2.2.2.2.1, hm.2.2.2.2.2.2.2⟩

theorem remove_zero_std_ne_zero (d : ℚ) : remove_zero_std d ≠ 0 := by
  unfold remove_zero_std
  split
  · norm_num
  · assumption

/-- `update_x_statistics` on an unfrozen dataset always succeeds and caches
`x_mean` and a protected `x_standard_dev`, touching nothing else. -/
theorem update_x_statistics_shape (sqrtF : ℚ → ℚ) (s : DState)
    (h : s.freeze_statistics = false) :
    ∃ m v, update_x_statistics sqrtF s
      = .ok { s with x_mean := some m,
                     x_standard_dev := some (remove_zero_std (sqrtF v)) } := by
  unfold update_x_statistics
  rw [if_neg (by simp [h])]
  exact ⟨_, _, rfl⟩

/-- `update_y_statistics` on an unfrozen dataset always succeeds and caches
`y_mean` and a protected `y_standard_dev`, touching nothing else. -/
theorem update_y_statistics_shape (sqrtF : ℚ → ℚ) (s : DState)
    (h : s.freeze_statistics = false) :
    ∃ m v, update_y_statistics sqrtF s
      = .ok { s with y_mean := some m,
                     y_standard_dev := some (remove_zero_std (sqrtF v)) } := by
  unfold update_y_statistics
  rw [if_neg (by simp [h])]
  exact ⟨_, _, rfl⟩

theorem normalize_denormalize_some (sqrtF : ℚ → ℚ) (u : DState) (m d : ℚ)
    (hm : u.x_mean = some m) (hd : u.x_standard_dev = some d) (hdz : d ≠ 0)
    (x : ℚ) :
    (normalize_x sqrtF u x).bind (fun p => denormalize_x sqrtF p.1 p.2)
      = .ok (u, x) := by
  have h1 : normalize_x sqrtF u x = .ok (u, (x - m) / d) := by
    unfold normalize_x
    rw [hm, hd]
  have h2 : denormalize_x sqrtF u ((x - m) / d)
      = .ok (u, (x - m) / d * d + m) := by
    unfold denormalize_x
    rw [hm, hd]
  rw [h1]
  show denormalize_x sqrtF u ((x - m) / d) = .ok (u, x)
  rw [h2, div_mul_cancel₀ _ hdz, sub_add_cancel]

theorem normalize_denormalize_some_y (sqrtF : ℚ → ℚ) (u : DState) (m d : ℚ)
    (hm : u.y_mean = some m) (hd : u.y_standard_dev = some d) (hdz : d ≠ 0)
    (y : ℚ) :
    (normalize_y sqrtF u y).bind (fun p => denormalize_y sqrtF p.1 p.2)
      = .ok (u, y) := by
  have h1 : normalize_y sqrtF u y = .ok (u, (y - m) / d) := by
    unfold normalize_y
    rw [hm, hd]
  have h2 : denormalize_y sqrtF u ((y - m) / d)
      = .ok (u, (y - m) / d * d + m) := by
    unfold denormalize_y
    rw [hm, hd]
  rw [h1]
  show denormalize_y sqrtF u ((y - m) / d) = .ok (u, y)
  rw [h2, div_mul_cancel₀ _ hdz, sub_add_cancel]

/-- C6: once normalization statistics have been computed (any state cached
by `update_x_statistics` / `update_y_statistics`), the cached standard
deviation is nonzero — zero standard deviations are replaced by one before
caching — and therefore the elementwise `denormalize_x ∘ normalize_x` (and
`denormalize_y ∘ normalize_y`) is the exact identity over exact
arithmetic. -/
theorem normalize_denormalize_identity (sqrtF : ℚ → ℚ) (sx sy s t : DState)
    (hx : update_x_statistics sqrtF sx = .ok s)
    (hy : update_y_statistics sqrtF sy = .ok t) :
    (∃ d, s.x_standard_dev = some d ∧ d ≠ 0) ∧
    (∃ d, t.y_standard_dev = some d ∧ d ≠ 0) ∧
    (∀ x : ℚ, (normalize_x sqrtF s x).bind
        (fun p => denormalize_x sqrtF p.1 p.2) = .ok (s, x)) ∧
    (∀ y : ℚ, (normalize_y sqrtF t y).bind
        (fun p => denormalize_y sqrtF p.1 p.2) = .ok (t, y)) := by
  have hfx : sx.freeze_statistics = false := by
    by_contra hc
    rw [Bool.not_eq_false] at hc
    unfold update_x_statistics at hx
    rw [if_pos hc] at hx
    exact absurd hx (by simp)
  have hfy : sy.freeze_statistics = false := by
    by_contra hc
    rw [Bool.not_eq_false] at hc
    unfold update_y_statistics at hy
    rw [if_pos hc] at hy
    exact absurd hy (by simp)
  obtain ⟨m, v, hsx⟩ := update_x_statistics_shape sqrtF sx hfx
  obtain ⟨m2, v2, hsy⟩ := update_y_statistics_shape sqrtF sy hfy
  rw [hsx] at hx
  rw [hsy] at hy
  have hs : s = { sx with x_mean := some m,
                          x_standard_dev := some (remove_zero_std (sqrtF v)) } := by
    simpa using hx.symm
  have ht : t = { sy with y_mean := some m2,
                          y_standard_dev := some (remove_zero_std (sqrtF v2)) } := by
    simpa using hy.symm
  subst hs
  subst ht
  refine ⟨⟨_, rfl, remove_zero_std_ne_zero _⟩,
    ⟨_, rfl, remove_zero_std_ne_zero _⟩, ?_, ?_⟩
  · intro x
    exact normalize_denormalize_some sqrtF _ m (remove_zero_std (sqrtF v))
      rfl rfl (remove_zero_std_ne_zero _) x
  · intro y
    exact normalize_denormalize_some_y sqrtF _ m2 (remove_zero_std (sqrtF v2))
      rfl rfl (remove_zero_std_ne_zero _) y

/-- A one-sample dataset for the C6 witness. -/
def w6_state : DState := init_state [[1]] [[1]]

/-- `w6_state` after `update_x_statistics`: mean 1, variance 0, so the
protected standard deviation is 1. -/
def w6_x : DState := { w6_state with
  x_mean := some 1
  x_standard_dev := some 1 }

/-- `w6_state` after `update_y_statistics`. -/
def w6_y : DState := { w6_state with
  y_mean := some 1
  y_standard_dev := some 1 }

/-- C6 witness: the identity theorem applied to the one-sample dataset, at
the concrete input 5. -/
theorem normalize_denormalize_identity_witness :
    (∃ d, w6_x.x_standard_dev = some d ∧ d ≠ 0) ∧
    (normalize_x (fun q => q) w6_x 5).bind
      (fun p => denormalize_x (fun q => q) p.1 p.2) = .ok (w6_x, 5) := by
  have h := normalize_denormalize_identity (fun q => q) w6_state w6_state
    w6_x w6_y (by with_unfolding_all decide) (by with_unfolding_all decide)
  exact ⟨h.1, h.2.2.1 5⟩

theorem bind_ok {ε α β : Type} (a : α) (f : α → Except ε β) :
    (Except.ok a).bind f = f a := rfl

theorem refresh_statistics_ok (sqrtF : ℚ → ℚ) (u : DState)
    (hfr : u.freeze_statistics = false) :
    ∃ w, refresh_statistics sqrtF u = .ok w ∧
      w = { u with x_mean := w.x_mean, y_mean := w.y_mean,
                   x_standard_dev := w.x_standard_dev,
                   y_standard_dev := w.y_standard_dev } := by
  unfold refresh_statistics
  by_cases hx : u.is_normalized_x = true
  · obtain ⟨m, v, hux⟩ := update_x_statistics_shape sqrtF u hfr
    rw [if_pos hx, hux, bind_ok]
    by_cases hy : ({ u with x_mean := some m, x_standard_dev := some (remove_zero_std (sqrtF v)) } : DState).is_normalized_y = true
    · obtain ⟨m2, v2, huy⟩ := update_y_statistics_shape sqrtF
        { u with x_mean := some m, x_standard_dev := some (remove_zero_std (sqrtF v)) } hfr
      rw [if_pos hy, huy]
      refine ⟨_, rfl, ?_⟩
      with_unfolding_all rfl
    · rw [if_neg hy]
      refine ⟨_, rfl, ?_⟩
      with_unfolding_all rfl
  · rw [if_neg hx, bind_ok]
    by_cases hy : u.is_normalized_y = true
    · obtain ⟨m2, v2, huy⟩ := update_y_statistics_shape sqrtF u hfr
      rw [if_pos hy, huy]
      refine ⟨_, rfl, ?_⟩
      with_unfolding_all rfl
    · rw [if_neg hy]
      refine ⟨_, rfl, ?_⟩
      with_unfolding_all rfl

theorem raw_y_eq (s : DState) (hbs : s.internal_batch_size ≠ 0)
    (hlast : (shard_pairs s).getLast? ≠ some []) :
    raw_y s = (shard_pairs s).flatten.map Prod.snd := by
  unfold raw_y
  rw [raw_rows_eq s hbs hlast]

theorem subsample_shape (sqrtF : ℚ → ℚ) (s : DState) (mx mn : ℚ)
    (hfr : s.freeze_statistics = false) (hmn : mn ≤ mx) :
    ∃ s', subsample sqrtF s mx mn = .ok s' ∧
      s'.dataset_min_output
        = (if 0 < mn then .val (percentile (raw_y s) mn) else .ninf) ∧
      s'.dataset_max_output
        = (if mx < 100 then .val (percentile (raw_y s) mx) else .pinf) ∧
      s'.dataset_size = ((raw_y s).filter fun v =>
          EB.le (.val v)
              (if mx < 100 then .val (percentile (raw_y s) mx) else .pinf)
            && EB.le
              (if 0 < mn then .val (percentile (raw_y s) mn) else .ninf)
              (.val v)).length ∧
      s'.x_shards = s.x_shards ∧ s'.y_shards = s.y_shards ∧
      s'.dataset_min_percentile = mn ∧ s'.dataset_max_percentile = mx := by
  simp only [subsample]
  rw [if_neg (by simp [hfr]), if_neg (not_lt.mpr hmn)]
  obtain ⟨w, hw, hframe⟩ := refresh_statistics_ok sqrtF
    { s with
      disable_transform := false
      dataset_min_percentile := mn
      dataset_min_output := if 0 < mn then .val (percentile (raw_y s) mn) else .ninf
      dataset_max_percentile := mx
      dataset_max_output := if mx < 100 then .val (percentile (raw_y s) mx) else .pinf
      dataset_size := ((raw_y s).filter fun v =>
        EB.le (.val v)
            (if mx < 100 then .val (percentile (raw_y s) mx) else .pinf)
          && EB.le
            (if 0 < mn then .val (percentile (raw_y s) mn) else .ninf)
            (.val v)).length } hfr
  refine ⟨w, hw, ?_, ?_, ?_, ?_, ?_, ?_, ?_⟩
  · simpa using congrArg DState.dataset_min_output hframe
  · simpa using congrArg DState.dataset_max_output hframe
  · simpa using congrArg DState.dataset_size hframe
  · simpa using congrArg DState.x_shards hframe
  · simpa using congrArg DState.y_shards hframe
  · simpa using congrArg DState.dataset_min_percentile hframe
  · simpa using congrArg DState.dataset_max_percentile hframe

/-- C8: `subsample(max_percentile=100, min_percentile=0)` sets
`dataset_min_output` to `np.NINF`, `dataset_max_output` to `np.PINF`, and
`dataset_size` to the full sample count — hence leaves `dataset_size`
unchanged whenever it already was the full count, in particular on an
unfiltered dataset.  More generally, every `subsample` call computes its
percentile thresholds from the *current full* y-distribution, materialized
with the transform disabled — not cumulatively from the previously filtered
view — and sets `dataset_size` to the number of those full y values `v`
with `dataset_min_output ≤ v ≤ dataset_max_output`. -/
theorem subsample_full_distribution (sqrtF : ℚ → ℚ) (s : DState)
    (hfr : s.freeze_statistics = false)
    (hbs : s.internal_batch_size ≠ 0)
    (hlast : (shard_pairs s).getLast? ≠ some []) :
    (∃ s', subsample sqrtF s 100 0 = .ok s' ∧
      s'.dataset_min_output = .ninf ∧ s'.dataset_max_output = .pinf ∧
      s'.dataset_size = (shard_pairs s).flatten.length ∧
      (s.dataset_size = (shard_pairs s).flatten.length →
        s'.dataset_size = s.dataset_size)) ∧
    (∀ mx mn : ℚ, mn ≤ mx → ∀ s'', subsample sqrtF s mx mn = .ok s'' →
      s''.dataset_min_output = (if 0 < mn then
        .val (percentile ((shard_pairs s).flatten.map Prod.snd) mn)
        else .ninf) ∧
      s''.dataset_max_output = (if mx < 100 then
        .val (percentile ((shard_pairs s).flatten.map Prod.snd) mx)
        else .pinf) ∧
      s''.dataset_size
        = (((shard_pairs s).flatten.map Prod.snd).filter fun v =>
            EB.le (.val v) s''.dataset_max_output
              && EB.le s''.dataset_min_output (.val v)).length) := by
  have hry := raw_y_eq s hbs hlast
  constructor
  · obtain ⟨s', hok, hmin, hmax, hsize, _, _, _, _⟩ :=
      subsample_shape sqrtF s 100 0 hfr (by norm_num)
    rw [if_neg (by norm_num)] at hmin
    rw [if_neg (by norm_num)] at hmax
    rw [if_neg (by norm_num), if_neg (by norm_num)] at hsize
    have hall : ((raw_y s).filter fun v =>
        EB.le (.val v) .pinf && EB.le .ninf (.val v)) = raw_y s := by
      have hpred : (fun (v : ℚ) => EB.le (.val v) .pinf && EB.le .ninf (.val v))
          = fun _ => true := by
        funext v
        rfl
      rw [hpred, List.filter_true]
    rw [hall, hry, List.length_map] at hsize
    exact ⟨s', hok, hmin, hmax, hsize, fun h => by rw [hsize, h]⟩
  · intro mx mn hmn s2 hsub
    obtain ⟨s', hok, hmin, hmax, hsize, _, _, _, _⟩ :=
      subsample_shape sqrtF s mx mn hfr hmn
    rw [hok] at hsub
    have hse : s' = s2 := by simpa using hsub
    subst hse
    rw [hry] at hmin hmax hsize
    refine ⟨hmin, hmax, ?_⟩
    rw [hmin, hmax]
    exact hsize

/-- A three-sample dataset over two shards, for the C8 witness. -/
def w8_state : DState := init_state [[1, 2], [3]] [[5, 6], [7]]

/-- C8 witness: the theorem applied to `w8_state`; `subsample(100, 0)`
leaves the thresholds at ±infinity and the size at the full count 3. -/
theorem subsample_full_distribution_witness :
    ∃ s', subsample (fun q => q) w8_state 100 0 = .ok s' ∧
      s'.dataset_min_output = .ninf ∧ s'.dataset_max_output = .pinf ∧
      s'.dataset_size = 3 := by
  obtain ⟨⟨s', hok, hmin, hmax, hsize, _⟩, _⟩ := subsample_full_distribution
    (fun q => q) w8_state (by decide) (by decide) (by decide)
  refine ⟨s', hok, hmin, hmax, ?_⟩
  rw [hsize]
  decide

theorem batch_transform_map_fst (s : DState) (hx : s.is_normalized_x = false)
    (l : List (ℚ × ℚ)) :
    (batch_transform s l).map Prod.fst
      = (l.filter fun r => in_bounds s r.2).map Prod.fst := by
  unfold batch_transform
  rw [List.map_map]
  apply List.map_congr_left
  intro r _
  simp [hx]

theorem batch_transform_map_snd (s : DState) (hy : s.is_normalized_y = false)
    (l : List (ℚ × ℚ)) :
    (batch_transform s l).map Prod.snd
      = (l.filter fun r => in_bounds s r.2).map Prod.snd := by
  unfold batch_transform
  rw [List.map_map]
  apply List.map_congr_left
  intro r _
  simp [hy]

/-- What the first pass of `update_x_statistics` actually reads: the
filtered (not canonical) design values, because `disable_transform` stays
untouched and only `is_normalized_x` is cleared. -/
theorem update_x_read_eq (s : DState)
    (hdt : s.disable_transform = false)
    (hbs : s.internal_batch_size ≠ 0)
    (hlast : (shard_pairs s).getLast? ≠ some []) :
    ((internal_batches { s with is_normalized_x := false }).map
      (List.map Prod.fst)).flatten = (filtered_rows s).map Prod.fst := by
  rw [flatten_map_map]
  rw [internal_batches_flatten { s with is_normalized_x := false } hbs hlast]
  have hd : ds_transform { s with is_normalized_x := false }
      = batch_transform { s with is_normalized_x := false } := by
    funext rows
    unfold ds_transform
    rw [if_neg (by simp [hdt])]
  rw [hd, batch_transform_map_fst _ rfl]
  rfl

/-- The y-channel mirror of `update_x_read_eq`. -/
theorem update_y_read_eq (s : DState)
    (hdt : s.disable_transform = false)
    (hbs : s.internal_batch_size ≠ 0)
    (hlast : (shard_pairs s).getLast? ≠ some []) :
    ((internal_batches { s with is_normalized_y := false }).map
      (List.map Prod.snd)).flatten = (filtered_rows s).map Prod.snd := by
  rw [flatten_map_map]
  rw [internal_batches_flatten { s with is_normalized_y := false } hbs hlast]
  have hd : ds_transform { s with is_normalized_y := false }
      = batch_transform { s with is_normalized_y := false } := by
    funext rows
    unfold ds_transform
    rw [if_neg (by simp [hdt])]
  rw [hd, batch_transform_map_snd _ rfl]
  rfl

/-- C3 (amended): `update_x_statistics` / `update_y_statistics` temporarily
force only the corresponding `is_normalized_*` flag off while streaming;
`disable_transform` is left untouched, so the streamed values are the
currently *filtered* — though unnormalized — ones.  After a completed call
the flag holds its prior value and only the corresponding
mean/standard-deviation pair differs from the pre-call state: the mean is
the exact mean of the filtered raw channel values, the standard deviation
the protected square root of their variance. -/
theorem update_statistics_use_filtered_values (sqrtF : ℚ → ℚ) (s : DState)
    (hfr : s.freeze_statistics = false)
    (hdt : s.disable_transform = false)
    (hbs : s.internal_batch_size ≠ 0)
    (hlast : (shard_pairs s).getLast? ≠ some [])
    (hne : filtered_rows s ≠ []) :
    update_x_statistics sqrtF s = .ok { s with
      x_mean := some (list_mean ((filtered_rows s).map Prod.fst))
      x_standard_dev := some (remove_zero_std (sqrtF
        (list_variance ((filtered_rows s).map Prod.fst)))) } ∧
    update_y_statistics sqrtF s = .ok { s with
      y_mean := some (list_mean ((filtered_rows s).map Prod.snd))
      y_standard_dev := some (remove_zero_std (sqrtF
        (list_variance ((filtered_rows s).map Prod.snd)))) } := by
  constructor
  · simp only [update_x_statistics]
    rw [if_neg (by simp [hfr])]
    have hread := update_x_read_eq s hdt hbs hlast
    have hmapne : (filtered_rows s).map Prod.fst ≠ [] := by
      simpa using hne
    have hflat_ne : ((internal_batches { s with is_normalized_x := false }).map
        (List.map Prod.fst)).flatten ≠ [] := by
      rw [hread]; exact hmapne
    have hm := running_mean_pass_eq _ hflat_ne
    have hv := running_variance_pass_eq
      (list_mean ((filtered_rows s).map Prod.fst)) _ hflat_ne
    rw [hread] at hm
    rw [hread] at hv
    rw [hm, hv]
    simp only [list_variance]
  · simp only [update_y_statistics]
    rw [if_neg (by simp [hfr])]
    have hread := update_y_read_eq s hdt hbs hlast
    have hmapne : (filtered_rows s).map Prod.snd ≠ [] := by
      simpa using hne
    have hflat_ne : ((internal_batches { s with is_normalized_y := false }).map
        (List.map Prod.snd)).flatten ≠ [] := by
      rw [hread]; exact hmapne
    have hm := running_mean_pass_eq _ hflat_ne
    have hv := running_variance_pass_eq
      (list_mean ((filtered_rows s).map Prod.snd)) _ hflat_ne
    rw [hread] at hm
    rw [hread] at hv
    rw [hm, hv]
    simp only [list_variance]

/-- A two-sample dataset whose percentile filter hides the sample with
prediction 10 (`dataset_max_output = 5`), for the C3 counterexample and
witness. -/
def c3_state : DState :=
  { init_state [[0, 4]] [[0, 10]] with
    dataset_max_output := .val 5
    dataset_size := 1 }

/-- C3 counterexample: on `c3_state` the mean `update_x_statistics` caches
is 0 — the mean of the one design value surviving the filter — while the
mean of the canonical untransformed design values is (0 + 4) / 2 = 2:
the statistics are not computed from canonical unfiltered values, because
`disable_transform` is never forced on. -/
theorem update_statistics_not_canonical :
    (update_x_statistics (fun q => q) c3_state).map (fun t => t.x_mean)
      = .ok (some 0) ∧
    spec_canonical_x_mean c3_state = 2 ∧
    (0 : ℚ) ≠ 2 := by
  with_unfolding_all decide

/-- C3 witness: the amended theorem applied to `c3_state`. -/
theorem update_statistics_use_filtered_values_witness :
    update_x_statistics (fun q => q) c3_state = .ok { c3_state with
      x_mean := some (list_mean ((filtered_rows c3_state).map Prod.fst))
      x_standard_dev := some (remove_zero_std
        (list_variance ((filtered_rows c3_state).map Prod.fst))) } :=
  (update_statistics_use_filtered_values (fun q => q) c3_state
    (by decide) (by decide) (by decide) (by decide)
    (by with_unfolding_all decide)).1

theorem range_map_getD {α β : Type} (d : α) (f : α → β) :
    ∀ l : List α, ((List.range l.length).map fun i => f (l.getD i d)) = l.map f := by
  intro l
  induction l with
  | nil => rfl
  | cons a t ih =>
    rw [List.length_cons, List.range_succ_eq_map]
    simp only [List.map_cons, List.getD_cons_zero, List.map_map]
    congr 1

theorem shard_pairs_map_length (s : DState)
    (hnum : s.x_shards.length = s.y_shards.length)
    (hplen : ∀ i, (s.x_shards.getD i []).length = (s.y_shards.getD i []).length) :
    (shard_pairs s).map List.length = s.y_shards.map List.length := by
  unfold shard_pairs
  have hn : get_num_shards s = s.y_shards.length := by
    unfold get_num_shards
    rw [List.length_zip, hnum]
    exact Nat.min_self _
  rw [hn, List.map_map]
  have hfun : (List.length ∘ fun i =>
      (s.x_shards.getD i []).zip (s.y_shards.getD i []))
      = fun i => (s.y_shards.getD i []).length := by
    funext i
    simp only [Function.comp_apply, List.length_zip, hplen i]
    exact Nat.min_self _
  rw [hfun]
  exact range_map_getD [] List.length s.y_shards

theorem shard_pairs_flatten_length (s : DState)
    (hnum : s.x_shards.length = s.y_shards.length)
    (hplen : ∀ i, (s.x_shards.getD i []).length = (s.y_shards.getD i []).length) :
    (shard_pairs s).flatten.length = (s.y_shards.map List.length).sum := by
  rw [List.length_flatten, shard_pairs_map_length s hnum hplen]

/-- When the relabeled values cover the stored rows exactly, the repacking
loop preserves every per-shard row count and writes the concatenation back
verbatim. -/
theorem repack_y_shards_spec :
    ∀ (shards : List (List ℚ)) (flat : List ℚ),
      flat.length = (shards.map List.length).sum →
      (repack_y_shards shards flat).map List.length
          = shards.map List.length ∧
      (repack_y_shards shards flat).flatten = flat := by
  intro shards
  induction shards with
  | nil =>
    intro flat h
    have hf : flat = [] := List.eq_nil_of_length_eq_zero (by simpa using h)
    subst hf
    exact ⟨rfl, rfl⟩
  | cons sh rest ih =>
    intro flat h
    simp only [List.map_cons, List.sum_cons] at h
    have hle : sh.length ≤ flat.length := by omega
    have hdrop : (flat.drop sh.length).length = (rest.map List.length).sum := by
      rw [List.length_drop]
      omega
    obtain ⟨ih1, ih2⟩ := ih (flat.drop sh.length) hdrop
    simp only [repack_y_shards]
    rw [if_pos hle]
    constructor
    · simp only [List.map_cons, ih1, List.length_take]
      congr 1
      omega
    · simp only [List.flatten_cons, ih2]
      exact List.take_append_drop _ _

theorem map_fn_flatten_length (fn : List (ℚ × ℚ) → List ℚ)
    (hfn : ∀ b, (fn b).length = b.length)
    (batches : List (List (ℚ × ℚ))) :
    ((batches.map fn).flatten).length = batches.flatten.length := by
  induction batches with
  | nil => rfl
  | cons b t ih => simp [hfn b, ih]

set_option maxHeartbeats 1000000 in
/-- C7: for a row-count-preserving relabel function, `relabel` rewrites
only the prediction shards: the shard count and every per-shard row count
are identical before and after — relabeled values are repacked into the
original per-shard row counts, not by batch size — the design shards are
untouched, and the stored flat prediction sequence equals, position for
position, the concatenation of the relabel function's outputs on the raw
internal batches (so each stored prediction is the function's value on the
batch containing its position).  The terminal `subsample` call re-applies
the current percentile filter (refreshing statistics when normalization is
active).  In particular the constant-one relabel function makes every
stored prediction 1. -/
theorem relabel_repacks_original_shards (sqrtF : ℚ → ℚ)
    (fn : List (ℚ × ℚ) → List ℚ) (s : DState)
    (hfr : s.freeze_statistics = false)
    (hbs : s.internal_batch_size ≠ 0)
    (hlast : (shard_pairs s).getLast? ≠ some [])
    (hnum : s.x_shards.length = s.y_shards.length)
    (hplen : ∀ i, (s.x_shards.getD i []).length = (s.y_shards.getD i []).length)
    (hfn : ∀ b, (fn b).length = b.length)
    (hpct : s.dataset_min_percentile ≤ s.dataset_max_percentile) :
    ∃ s', relabel sqrtF fn s = .ok s' ∧
      s'.x_shards = s.x_shards ∧
      s'.y_shards.map List.length = s.y_shards.map List.length ∧
      s'.y_shards.flatten
        = ((internal_batches (transform_disabled s)).map fn).flatten ∧
      ((fn = fun b => b.map fun _ => (1 : ℚ)) →
        ∀ v ∈ s'.y_shards.flatten, v = 1) := by
  have hflat : (internal_batches (transform_disabled s)).flatten
      = (shard_pairs s).flatten := raw_rows_eq s hbs hlast
  have hlen_newy :
      (((internal_batches (transform_disabled s)).map fn).flatten).length
        = (s.y_shards.map List.length).sum := by
    rw [map_fn_flatten_length fn hfn, hflat]
    exact shard_pairs_flatten_length s hnum hplen
  obtain ⟨hrepack_len, hrepack_flat⟩ :=
    repack_y_shards_spec s.y_shards _ hlen_newy
  simp only [relabel]
  rw [if_neg (by simp [hfr])]
  obtain ⟨s', hok, _, _, _, hx, hy, _, _⟩ := subsample_shape sqrtF
    { s with
      y_shards := repack_y_shards s.y_shards
        (((internal_batches (transform_disabled s)).map fn).flatten)
      disable_transform := false }
    s.dataset_max_percentile s.dataset_min_percentile hfr hpct
  refine ⟨s', hok, ?_, ?_, ?_, ?_⟩
  · simpa using hx
  · have hy2 : s'.y_shards = repack_y_shards s.y_shards
        (((internal_batches (transform_disabled s)).map fn).flatten) := by
      simpa using hy
    rw [hy2, hrepack_len]
  · have hy2 : s'.y_shards = repack_y_shards s.y_shards
        (((internal_batches (transform_disabled s)).map fn).flatten) := by
      simpa using hy
    rw [hy2, hrepack_flat]
  · intro hone v hv
    have hy2 : s'.y_shards = repack_y_shards s.y_shards
        (((internal_batches (transform_disabled s)).map fn).flatten) := by
      simpa using hy
    rw [hy2, hrepack_flat] at hv
    subst hone
    rw [List.mem_flatten] at hv
    obtain ⟨l, hl, hvl⟩ := hv
    rw [List.mem_map] at hl
    obtain ⟨b, _, hb⟩ := hl
    rw [← hb] at hvl
    rw [List.mem_map] at hvl
    obtain ⟨r, _, hr⟩ := hvl
    exact hr.symm

/-- C7 witness: the relabel theorem applied with the constant-one relabel
function to a concrete two-shard dataset; shard sizes [2, 1] are preserved
and every stored prediction becomes 1. -/
theorem relabel_repacks_original_shards_witness :
    ∃ s', relabel (fun q => q) (fun b => b.map fun _ => (1 : ℚ))
        (init_state [[1, 2], [3]] [[5, 6], [7]]) = .ok s' ∧
      s'.y_shards.map List.length = [2, 1] ∧
      ∀ v ∈ s'.y_shards.flatten, v = 1 := by
  obtain ⟨s', h1, _, h3, _, h5⟩ := relabel_repacks_original_shards
    (fun q => q) (fun b => b.map fun _ => (1 : ℚ))
    (init_state [[1, 2], [3]] [[5, 6], [7]])
    (by decide) (by decide) (by decide) (by decide)
    (by
      intro i
      match i with
      | 0 => rfl
      | 1 => rfl
      | n + 2 => rfl)
    (by
      intro b
      simp)
    (by decide)
  refine ⟨s', h1, ?_, h5 rfl⟩
  rw [h3]
  decide

end DesignBench
